import Mathlib

/-!
Verification of django-interval-field (src/interval/fields.py, src/interval/tools.py).

The Python code is shallowly embedded: Python byte/unicode strings become
`List Char`, Python `int` becomes `Int` (arbitrary precision, as in Python),
raised `ValueError`s become the error channel of `Except` (every `raise` in the
modelled code is a `ValueError`), and `dateutil.relativedelta` becomes the
seven-component `Relativedelta` structure together with the `_fix` normalisation that
`relativedelta.__init__` performs.  All definitions are executable and
structurally recursive (fuel is used where the Python loop is not structural),
so that every modelled function evaluates by `decide` / `rfl` on concrete
input.
-/

/-- Characters of a Python string (`str` / `unicode` are sequences of chars). -/
abbrev Str := List Char

/-- Coerce a Lean string literal to the character-list representation. -/
def S (s : String) : Str := s.toList

/-- Python `str.isspace` characters, the set stripped by `str.strip()` and by
`int(...)` / `float(...)` on their string arguments. -/
def isSpacePy (c : Char) : Bool :=
  c = ' ' || c = '\t' || c = '\n' || c = '\r' || c = '\x0b' || c = '\x0c'

/-- Python `value.strip()`: remove leading and trailing whitespace. -/
def pyStrip (s : Str) : Str :=
  ((s.dropWhile isSpacePy).reverse.dropWhile isSpacePy).reverse

/-- Numeric value of a (most-significant-first) digit string, as computed by
Python `int` once the characters are known to be decimal digits. -/
def digitsVal : Str → Nat
  | [] => 0
  | c :: r => (c.toNat - 48) * 10 ^ r.length + digitsVal r

/-- Python `int(t)` on an already-stripped string: optional sign followed by a
non-empty run of decimal digits; anything else raises `ValueError` (`none`). -/
def pyIntCore (t : Str) : Option Int :=
  match t with
  | [] => none
  | c :: r =>
    if c = '+' then
      if !r.isEmpty && r.all Char.isDigit then some (digitsVal r : Int) else none
    else if c = '-' then
      if !r.isEmpty && r.all Char.isDigit then some (-(digitsVal r : Int)) else none
    else
      if (c :: r).all Char.isDigit then some (digitsVal (c :: r) : Int) else none

/-- Python `int(s)` for a string argument (whitespace is stripped first). -/
def pyInt (s : Str) : Option Int := pyIntCore (pyStrip s)

/-- Python `value.find(sub) >= 0`: does `sub` occur as a substring? -/
def containsSub (sub : Str) : Str → Bool
  | [] => sub.isEmpty
  | c :: r => sub.isPrefixOf (c :: r) || containsSub sub r

/-- First occurrence of `sep` in a string: `some (before, after)` where
`before ++ sep ++ after` is the string, or `none` when `sep` does not occur. -/
def splitFirst (sep : Str) : Str → Option (Str × Str)
  | [] => none
  | c :: r =>
    if sep.isPrefixOf (c :: r) then some ([], (c :: r).drop sep.length)
    else
      match splitFirst sep r with
      | some (pre, post) => some (c :: pre, post)
      | none => none

/-- Fuelled worker for `pySplit`; the fuel only serves to make the recursion
structural (each step removes at least one character when `sep` is non-empty,
and `pySplit` always supplies enough fuel). -/
def pySplitF (sep : Str) : Nat → Str → List Str
  | 0, s => [s]
  | fuel + 1, s =>
    match splitFirst sep s with
    | none => [s]
    | some (pre, post) => pre :: pySplitF sep fuel post

/-- Python `value.split(sep)` for a non-empty separator: split at every
(non-overlapping, leftmost-first) occurrence of `sep`. -/
def pySplit (sep s : Str) : List Str := pySplitF sep (s.length + 1) s

/-- Decimal digit character (used to build numerals for unbounded-input
theorems). -/
def digitChar (d : Nat) : Char := Char.ofNat (48 + d)

/-- Fuelled most-significant-first decimal numeral of a natural number. -/
def natDigitsF : Nat → Nat → Str
  | 0, _ => []
  | fuel + 1, n =>
    if n < 10 then [digitChar n] else natDigitsF fuel (n / 10) ++ [digitChar (n % 10)]

/-- Decimal numeral of a natural number, e.g. `natDigits 120 = S "120"`. -/
def natDigits (n : Nat) : Str := natDigitsF (n + 1) n

/-- Python `"%s" % n` / `"%i" % n` for an integer. -/
def intStr (n : Int) : Str := S (toString n)

/-- Forget the error of an `Except` (used to compare raising code with an
`Option`-valued specification). -/
def exceptToOption : Except Str α → Option α
  | .ok a => some a
  | .error _ => none

/-!
## Model of `src/interval/fields.py` and `src/interval/tools.py`
-/

/-- `dateutil.relativedelta.relativedelta` restricted to its seven relative
integer components (the module never uses absolute or weekday information). -/
structure Relativedelta where
  years : Int
  months : Int
  days : Int
  hours : Int
  minutes : Int
  seconds : Int
  microseconds : Int
deriving DecidableEq

/-- `relativedelta()`, the zero delta. -/
def zeroRelativedelta : Relativedelta := ⟨0, 0, 0, 0, 0, 0, 0⟩

/-- One normalisation step of `relativedelta._fix`: when `|v| > bound`,
`div, mod = divmod(v*sign, base)` with the sign factored out; returns the new
component value and the (signed) carry into the next-larger unit.  `divmod` on
the non-negative `|v|` is plain natural division/remainder. -/
def fixCarry (v : Int) (bound base : Nat) : Int × Int :=
  if v.natAbs > bound then
    let sg : Int := if v < 0 then -1 else 1
    (sg * (v.natAbs % base : Nat), sg * (v.natAbs / base : Nat))
  else (v, 0)

/-- `relativedelta._fix`, run by `relativedelta.__init__`: cascade carries
microseconds → seconds → minutes → hours → days and months → years.
Days themselves are never normalised. -/
def relFix (r : Relativedelta) : Relativedelta :=
  let pu := fixCarry r.microseconds 999999 1000000
  let s1 := r.seconds + pu.2
  let ps := fixCarry s1 59 60
  let m1 := r.minutes + ps.2
  let pm := fixCarry m1 59 60
  let h1 := r.hours + pm.2
  let ph := fixCarry h1 23 24
  let d1 := r.days + ph.2
  let pmo := fixCarry r.months 11 12
  ⟨r.years + pmo.2, pmo.1, d1, ph.1, pm.1, ps.1, pu.1⟩

/-- `relativedelta(days=d, hours=h, minutes=m, seconds=s, microseconds=us)`. -/
def relativedelta_init (d h m s us : Int) : Relativedelta :=
  relFix ⟨0, 0, d, h, m, s, us⟩

/-- Module constant `day_seconds = 24 * 60 * 60`. -/
def day_seconds : Int := 24 * 60 * 60

/-- Module constant `microseconds = 1000000` (Python int). -/
def microsecondsC : Int := 1000000

/-- Python value handed to `range_check`: the code passes either an already
converted int (for the day count) or a raw string field. -/
inductive PyNum
  | i (n : Int)
  | s (st : Str)
deriving DecidableEq

/-- `int(value)` inside `range_check`: an int converts to itself, a string is
parsed by Python `int`. -/
def pyNumToInt : PyNum → Option Int
  | .i n => some n
  | .s st => pyInt st

/-- `"%s" % value` for the argument of `range_check`. -/
def pyNumStr : PyNum → Str
  | .i n => intStr n
  | .s st => st

/-- `range_check(value, name, min, max)` from fields.py: convert to int
(raising "... is not an integer"), then check the optional minimum (inclusive,
"... is less than ...") and optional maximum (inclusive, "... is more than
..."); the `name` argument is never used by the source. -/
def range_check (value : PyNum) (name : Str) (mn mx : Option Int) : Except Str Int :=
  match pyNumToInt value with
  | none => .error (pyNumStr value ++ S " is not an integer")
  | some v =>
    match mn with
    | some m =>
      if v < m then .error (intStr v ++ S " is less than " ++ intStr m)
      else
        match mx with
        | some mmax =>
          if v > mmax then .error (intStr v ++ S " is more than " ++ intStr mmax)
          else .ok v
        | none => .ok v
    | none =>
      match mx with
      | some mmax =>
        if v > mmax then .error (intStr v ++ S " is more than " ++ intStr mmax)
        else .ok v
      | none => .ok v

/-- `"%r" % value` for a byte string.  Only the fact that the repr follows the
constant message text matters to any claim, so escaping of special characters
inside the quotes is not modelled. -/
def pyReprStr (s : Str) : Str := '\'' :: (s ++ ['\''])

/-- Message of `formatError(value)` (the function only raises `ValueError`). -/
def formatErrorMsg (value : Str) : Str :=
  S "please use [[DD]D days,]HH:MM:SS[.ms] instead of " ++ pyReprStr value

/-- Message of the `ValueError` Python raises for tuple unpacking of a list of
`n` parts against 2 (or 3) targets; in `to_python` only the `n > 2` form can
actually occur uncaught. -/
def unpackMsg (n : Nat) : Str :=
  if n > 2 then S "too many values to unpack" else S "need more than 1 value to unpack"

/-- The `"days," / "day,"` prefix handling of `to_python` (fields.py lines
147-160): when the string contains `"days,"` or `"day,"`, split on the first
such separator (the code tests `"days,"` first), require exactly one
occurrence (otherwise the unpacking `ValueError` escapes uncaught), strip the
remainder, parse the day count with `int` (a failure is caught and re-raised
as the format error, quoting the already-stripped remainder), and range-check
it against a minimum of 0. -/
def dayPrefixStep (value0 : Str) : Except Str (Int × Str) :=
  if containsSub (S "days,") value0 || containsSub (S "day,") value0 then
    let sep := if containsSub (S "days,") value0 then S "days," else S "day,"
    match pySplit sep value0 with
    | [d, rest] =>
      let rest' := pyStrip rest
      match pyInt (pyStrip d) with
      | none => .error (formatErrorMsg rest')
      | some dv => (range_check (.i dv) (S "days") (some 0) none).map (fun dv' => (dv', rest'))
    | parts => .error (unpackMsg parts.length)
  else .ok (0, value0)

/-- The `HH:MM:SS[.ms]` handling of `to_python` (fields.py lines 162-183):
split on ":" into exactly three fields (any other arity raises the unpacking
`ValueError`, which is caught and re-raised as the format error), range-check
hours (min 0) and minutes (0..59), split the seconds field at "." when a dot
is present (again exactly one occurrence or the unpacking `ValueError`
escapes), range-check seconds (0..59) and the fractional part (0..1000000,
the maximum being the module constant, checked inclusively), scale the
fractional part by the Python floor division `microseconds / 10 ** l`, and
build the `relativedelta`. -/
def secStep (days hv mv : Int) (s : Str) : Except Str Relativedelta := do
  let sms ←
    if containsSub (S ".") s then
      match pySplit (S ".") s with
      | [a, b] => Except.ok (a, b)
      | parts => Except.error (unpackMsg parts.length)
    else Except.ok (s, S "0")
  let sv ← range_check (.s sms.1) (S "seconds") (some 0) (some 59)
  let l := sms.2.length
  let msv ← range_check (.s sms.2) (S "microseconds") (some 0) (some microsecondsC)
  let scaled := msv * Int.fdiv microsecondsC ((10 : Int) ^ l)
  pure (relativedelta_init days hv mv sv scaled)

def hmsStep (days : Int) (value : Str) : Except Str Relativedelta := do
  let parts3 ←
    match pySplit (S ":") value with
    | [h, m, s] => Except.ok (h, m, s)
    | _ => Except.error (formatErrorMsg value)
  let hv ← range_check (.s parts3.1) (S "hours") (some 0) none
  let mv ← range_check (.s parts3.2.1) (S "minutes") (some 0) (some 59)
  secStep days hv mv parts3.2.2

/-- The string branch of `IntervalField.to_python` for a string containing a
":" (fields.py lines 146-183). -/
def to_python_str (v : Str) : Except Str Relativedelta := do
  let dr ← dayPrefixStep v
  hmsStep dr.1 dr.2

/-- Exponent/suffix part of Python `float(...)` parsing; the mantissa value is
computed exactly in `ℚ` (the claims only depend on which strings parse, never
on rounded float values, so IEEE-754 rounding is not modelled; neither are the
`inf`/`nan` spellings). -/
def pyFloatExp (sg : Int) (whole : Nat) (frac : Str) (rest : Str) : Option ℚ :=
  let base : ℚ := (sg : ℚ) * ((whole : ℚ) + (digitsVal frac : ℚ) / (10 : ℚ) ^ frac.length)
  match rest with
  | [] => some base
  | e :: r =>
    if e = 'e' || e = 'E' then
      let sr : Int × Str :=
        match r with
        | '+' :: rr => (1, rr)
        | '-' :: rr => (-1, rr)
        | _ => (1, r)
      if !sr.2.isEmpty && sr.2.all Char.isDigit then
        some (base * (10 : ℚ) ^ (sr.1 * (digitsVal sr.2 : Int)))
      else none
    else none

/-- Python `float(s)` for a string: strip whitespace, optional sign, digits
with an optional fractional part (at least one digit overall), optional
exponent. -/
def pyFloat (s0 : Str) : Option ℚ :=
  let t0 := pyStrip s0
  let st : Int × Str :=
    match t0 with
    | '+' :: r => (1, r)
    | '-' :: r => (-1, r)
    | _ => (1, t0)
  let ip := st.2.takeWhile Char.isDigit
  let t1 := st.2.drop ip.length
  match t1 with
  | '.' :: r =>
    let fp := r.takeWhile Char.isDigit
    let t2 := r.drop fp.length
    if ip.isEmpty && fp.isEmpty then none
    else pyFloatExp st.1 (digitsVal ip) fp t2
  | _ =>
    if ip.isEmpty then none else pyFloatExp st.1 (digitsVal ip) [] t1

/-- The Python values `IntervalField.to_python` can receive: a
`relativedelta` (from psycopg2 via `cast_interval`), a `datetime.timedelta`
(days/seconds/microseconds), `None`, a byte string, a unicode string, or an
integer read back from a BIGINT column. -/
inductive PyValue
  | pynone
  | rel (r : Relativedelta)
  | td (days seconds micros : Int)
  | bstr (s : Str)
  | ustr (s : Str)
  | int (n : Int)
deriving DecidableEq

/-- Result of `to_python`: `None`, a `relativedelta` with integer components,
or `relativedelta(seconds=f)` for a Python float `f` (modelled exactly as a
rational; `timedelta.total_seconds()` and `float(value) / microseconds` both
produce such a value). -/
inductive PyRet
  | none
  | rel (r : Relativedelta)
  | relSeconds (q : ℚ)
deriving DecidableEq

/-- `IntervalField.to_python` (fields.py lines 133-186).  The `value is None or
value is '' or value is u''` test is modelled as equality with the empty
string (CPython interns the empty byte and unicode strings, so the identity
test behaves as equality there). -/
def to_python (value : PyValue) : Except Str PyRet :=
  match value with
  | .rel r => .ok (.rel r)
  | .td d s us =>
    .ok (.relSeconds (((d * 86400 + s : Int) : ℚ) + (us : ℚ) / 1000000))
  | .pynone => .ok .none
  | .bstr s =>
    if s = [] then .ok .none
    else if containsSub (S ":") s then (to_python_str s).map .rel
    else
      match pyFloat s with
      | some q => .ok (.relSeconds (q / 1000000))
      | none => .error (S "could not convert string to float: " ++ s)
  | .ustr s =>
    if s = [] then .ok .none
    else if containsSub (S ":") s then (to_python_str s).map .rel
    else
      match pyFloat s with
      | some q => .ok (.relSeconds (q / 1000000))
      | none => .error (S "could not convert string to float: " ++ s)
  | .int n =>
    .ok (.relSeconds ((n : ℚ) / 1000000))

/-- `relativedelta_topgsqlstring(value)`: iterate over the attributes
`months`, `days`, `seconds`, `microseconds` (in that order — `years`,
`hours` and `minutes` are never read), emit `"%i %s" % (v, attr.upper())` for
truthy (non-zero) values, and join with spaces, or return `"0"` when nothing
was emitted. -/
def relativedelta_topgsqlstring (value : Relativedelta) : Str :=
  let attrs : List (Int × Str) :=
    [(value.months, S "MONTHS"), (value.days, S "DAYS"),
     (value.seconds, S "SECONDS"), (value.microseconds, S "MICROSECONDS")]
  let buf := (attrs.filter (fun p => p.1 != 0)).map (fun p => intStr p.1 ++ [' '] ++ p.2)
  if buf.isEmpty then S "0" else List.intercalate (S " ") buf

/-- `relativedelta_tobigint(value)`. -/
def relativedelta_tobigint (value : Relativedelta) : Int :=
  value.days * day_seconds * microsecondsC + value.seconds * microsecondsC + value.microseconds

/-- Values `get_db_prep_value` can return: `None`, a string (for the
PostgreSQL INTERVAL column), or a Python int (for the BIGINT column). -/
inductive DbPrep
  | none
  | text (s : Str)
  | bigint (n : Int)
deriving DecidableEq

/-- `connection.settings_dict['ENGINE'].find('postgresql') >= 0 or ...
.find('postgis') >= 0`. -/
def isPostgres (engine : Str) : Bool :=
  containsSub (S "postgresql") engine || containsSub (S "postgis") engine

/-- `IntervalField.get_db_prep_value` (fields.py lines 188-199).  The
`value is None or value is ''` test covers only the byte empty string (there
is no `u''` test here, unlike `to_python`).  On the non-PostgreSQL path a
string or `None`-like value would hit `relativedelta_tobigint` and raise
`AttributeError` (no `.days`); a `timedelta` has `days`/`seconds`/
`microseconds` attributes, so it converts.  On the PostgreSQL path a
`timedelta` or int would raise `AttributeError` inside
`relativedelta_topgsqlstring` (no `.months`). -/
def get_db_prep_value (value : PyValue) (engine : Str) : Except Str DbPrep :=
  if value = .pynone || value = .bstr [] then .ok .none
  else if isPostgres engine then
    match value with
    | .bstr s => .ok (.text s)
    | .ustr s => .ok (.text s)
    | .rel r => .ok (.text (relativedelta_topgsqlstring r))
    | _ => .error (S "AttributeError")
  else
    match value with
    | .rel r => .ok (.bigint (relativedelta_tobigint r))
    | .td d s us => .ok (.bigint (relativedelta_tobigint ⟨0, 0, d, 0, 0, s, us⟩))
    | _ => .error (S "AttributeError")

/-- Attempted match of `months_re = re.compile('(\d+) months?')` (or, with
`word = " day"`, of `days_re`) at the current position: the greedy `\d+` takes
the maximal digit run (backtracking cannot help, since giving a digit back
makes the following literal space fail), then the literal `word`, then an
optional greedy `'s'`.  Returns the capture and the rest of the input after
the whole match. -/
def matchNumWord (word : Str) (s : Str) : Option (Str × Str) :=
  let ds := s.takeWhile Char.isDigit
  if ds.isEmpty then none
  else
    let rest := s.drop ds.length
    if word.isPrefixOf rest then
      match rest.drop word.length with
      | 's' :: r2 => some (ds, r2)
      | r2 => some (ds, r2)
    else none

/-- Fuelled scanner implementing `re.findall` for `'(\d+) months?'` /
`'(\d+) days?'`: try a match at every position, left to right, resuming after
the end of each (non-overlapping) match; collect the `\d+` captures. -/
def scanNumWordF (word : Str) : Nat → Str → List Str
  | 0, _ => []
  | _ + 1, [] => []
  | fuel + 1, c :: r =>
    match matchNumWord word (c :: r) with
    | some (cap, rest) => cap :: scanNumWordF word fuel rest
    | none => scanNumWordF word fuel r

/-- `re.findall` of `'(\d+) ' ++ word ++ 's?'` over a string. -/
def scanNumWord (word : Str) (s : Str) : List Str := scanNumWordF word (s.length + 1) s

/-- Attempted match of `hms_re = re.compile('(\d\d:\d\d:\d\d)')` at the
current position; the capture is returned already cut at the colons (the
caller `cast_interval` splits it right away: `h, m, s = hms.split(':')`). -/
def matchHMS : Str → Option ((Str × Str × Str) × Str)
  | d1 :: d2 :: ':' :: d3 :: d4 :: ':' :: d5 :: d6 :: rest =>
    if d1.isDigit && d2.isDigit && d3.isDigit && d4.isDigit && d5.isDigit && d6.isDigit then
      some (([d1, d2], [d3, d4], [d5, d6]), rest)
    else none
  | _ => none

/-- Fuelled scanner implementing `re.findall` for `'(\d\d:\d\d:\d\d)'`. -/
def scanHMSF : Nat → Str → List (Str × Str × Str)
  | 0, _ => []
  | _ + 1, [] => []
  | fuel + 1, c :: r =>
    match matchHMS (c :: r) with
    | some (t, rest) => t :: scanHMSF fuel rest
    | none => scanHMSF fuel r

/-- `re.findall` of `'(\d\d:\d\d:\d\d)'` over a string. -/
def scanHMS (s : Str) : List (Str × Str × Str) := scanHMSF (s.length + 1) s

/-- `cast_interval(value, cur)` (fields.py lines 27-48): start from
`relativedelta()`, return it unchanged for a falsy value (`None` from a SQL
NULL, or an empty string), otherwise accumulate `ret.months += int(month)` for
every `months_re` capture, `ret.days += int(day)` for every `days_re` capture,
and the three components of every `hms_re` capture.  The unused cursor
argument is dropped.  Attribute assignment does not re-run `_fix`, so these
sums are not normalised. -/
def cast_interval (value : Option Str) : Relativedelta :=
  match value with
  | none => zeroRelativedelta
  | some v =>
    if v.isEmpty then zeroRelativedelta
    else
      let r1 := (scanNumWord (S " month") v).foldl
        (fun r c => { r with months := r.months + (digitsVal c : Int) }) zeroRelativedelta
      let r2 := (scanNumWord (S " day") v).foldl
        (fun r c => { r with days := r.days + (digitsVal c : Int) }) r1
      (scanHMS v).foldl
        (fun r t => { r with hours := r.hours + (digitsVal t.1 : Int),
                             minutes := r.minutes + (digitsVal t.2.1 : Int),
                             seconds := r.seconds + (digitsVal t.2.2 : Int) }) r2

/-- Python 2 `cmp` on two ints: -1, 0 or 1. -/
def pyCmp (a b : Int) : Int := if a < b then -1 else if b < a then 1 else 0

/-- Python 2 `cmp` on tuples (of equal length here): lexicographic — the first
unequal pair of components decides. -/
def pyCmpList : List Int → List Int → Int
  | [], [] => 0
  | [], _ :: _ => -1
  | _ :: _, [] => 1
  | x :: xs, y :: ys => if x = y then pyCmpList xs ys else pyCmp x y

/-- The seven-component tuple both sides of `cmp_relativedeltas` build. -/
def relTuple (r : Relativedelta) : List Int :=
  [r.years, r.months, r.days, r.hours, r.minutes, r.seconds, r.microseconds]

/-- `cmp_relativedeltas(lhs, rhs)` from src/interval/tools.py. -/
def cmp_relativedeltas (lhs rhs : Relativedelta) : Int :=
  pyCmpList (relTuple lhs) (relTuple rhs)

/-!
## Specification-side definitions (phrased from the claims, to be compared
with the code model above)
-/

/-- Lexicographic strict order on integer lists (C4's "lexicographic order of
the seven-component tuples"). -/
def lexLt : List Int → List Int → Prop
  | _, [] => False
  | [], _ :: _ => True
  | x :: xs, y :: ys => x < y ∨ (x = y ∧ lexLt xs ys)

/-- One `'<value> <UNIT>'` term of C5's claimed formatter, emitted only for a
non-zero component. -/
def specTerm (v : Int) (unit : Str) : List Str :=
  if v ≠ 0 then [intStr v ++ [' '] ++ unit] else []

/-- C5's claimed formatter: a space-separated list of `'<value> <UNIT>'` terms
for each non-zero component of the delta, or `"0"` when all components are
zero. -/
def specFormat (r : Relativedelta) : Str :=
  let terms :=
    specTerm r.years (S "YEARS") ++ specTerm r.months (S "MONTHS") ++
    specTerm r.days (S "DAYS") ++ specTerm r.hours (S "HOURS") ++
    specTerm r.minutes (S "MINUTES") ++ specTerm r.seconds (S "SECONDS") ++
    specTerm r.microseconds (S "MICROSECONDS")
  if terms.isEmpty then S "0" else List.intercalate (S " ") terms

/-- The component fields recovered from a `"[[D]D days,]HH:MM:SS[.ms]"` string
before any range checking: the day count (0 if absent), the three
colon-separated fields, and the fractional part with its digit length when a
dot is present. -/
structure RawFields where
  days : Int
  hours : Int
  minutes : Int
  seconds : Int
  frac : Option (Int × Nat)
deriving DecidableEq

/-- Decomposition of the seconds field: when it contains a dot it must split
into exactly two parts, seconds and fraction, each parsed by Python `int`;
otherwise the whole field is the seconds. -/
def lenientSec (s : Str) : Option (Int × Option (Int × Nat)) :=
  if containsSub (S ".") s then
    match pySplit (S ".") s with
    | [a, b] => (pyInt a).bind fun sv => (pyInt b).map fun fv => (sv, some (fv, b.length))
    | _ => none
  else (pyInt s).map fun sv => (sv, none)

/-- Decomposition of the part after the optional day prefix: exactly three
colon-separated fields, hours and minutes parsed by Python `int`, seconds
handled by `lenientSec`. -/
def lenientHMS (d : Int) (rest : Str) : Option RawFields :=
  match pySplit (S ":") rest with
  | [h, m, s] =>
    (pyInt h).bind fun hv =>
    (pyInt m).bind fun mv =>
    (lenientSec s).map fun p => ⟨d, hv, mv, p.1, p.2⟩
  | _ => none

/-- Shape of the strings the parser accepts, phrased from the (amended) claim:
an optional day count terminated by a single occurrence of `"days,"` (or, when
only the singular is present, `"day,"`), the count parsed by Python `int`
(whitespace- and sign-tolerant) and the remainder stripped; then exactly three
colon-separated fields with `int`-parsed hours and minutes and a dot-split
seconds field.  Returns the parsed fields, before range checking. -/
def lenientFields (v : Str) : Option RawFields :=
  if containsSub (S "days,") v then
    match pySplit (S "days,") v with
    | [d, rest] => (pyInt (pyStrip d)).bind fun dv => lenientHMS dv (pyStrip rest)
    | _ => none
  else if containsSub (S "day,") v then
    match pySplit (S "day,") v with
    | [d, rest] => (pyInt (pyStrip d)).bind fun dv => lenientHMS dv (pyStrip rest)
    | _ => none
  else lenientHMS 0 v

/-- The per-field ranges the claims state (as amended): day count and hours
non-negative and unbounded, minutes and seconds in [0, 59], fractional value
in [0, 10^6] — the upper bound inclusive, since `range_check` only rejects
values strictly above its maximum. -/
def rangesOK (f : RawFields) : Bool :=
  decide (0 ≤ f.days) && decide (0 ≤ f.hours) &&
  decide (0 ≤ f.minutes) && decide (f.minutes ≤ 59) &&
  decide (0 ≤ f.seconds) && decide (f.seconds ≤ 59) &&
  f.frac.all fun p => decide (0 ≤ p.1) && decide (p.1 ≤ microsecondsC)

/-- The microseconds resulting from the fractional field: its integer value
scaled by the floor division `10^6 / 10^l` where `l` is its digit length
(0 when no fractional part is present). -/
def fieldsMicro (f : RawFields) : Int :=
  match f.frac with
  | none => 0
  | some p => p.1 * Int.fdiv microsecondsC ((10 : Int) ^ p.2)

/-- The `relativedelta` the claims say a parsed string produces: built from
the recovered day/hour/minute/second components and the scaled microseconds
(and normalised by `relativedelta.__init__`). -/
def fieldsToRel (f : RawFields) : Relativedelta :=
  relativedelta_init f.days f.hours f.minutes f.seconds (fieldsMicro f)

/-- The claimed meaning of the string branch of `to_python`: a string parses
exactly when it decomposes into fields (`lenientFields`) whose values pass the
range checks, and then yields the `relativedelta` built from those fields. -/
def lenientParse (v : Str) : Option Relativedelta :=
  (lenientFields v).bind fun f => if rangesOK f then some (fieldsToRel f) else none

/-- Strict digit-only reading of the claimed format `HH:MM:SS[.ms]` after the
optional day prefix: a non-empty run of digits for the hours, two-digit
minutes and seconds not exceeding 59, and an optional fractional part of one
to six digits. -/
def strictHMS (d : Int) (v : Str) : Option Relativedelta :=
  let h := v.takeWhile Char.isDigit
  if h.isEmpty then none
  else
    match v.drop h.length with
    | ':' :: r1 =>
      let m := r1.takeWhile Char.isDigit
      if m.length = 2 && digitsVal m ≤ 59 then
        match r1.drop m.length with
        | ':' :: r2 =>
          let s := r2.takeWhile Char.isDigit
          if s.length = 2 && digitsVal s ≤ 59 then
            match r2.drop s.length with
            | [] =>
              some (relativedelta_init d (digitsVal h : Nat) (digitsVal m : Nat)
                (digitsVal s : Nat) 0)
            | '.' :: f =>
              if !f.isEmpty && f.all Char.isDigit && f.length ≤ 6 then
                some (relativedelta_init d (digitsVal h : Nat) (digitsVal m : Nat)
                  (digitsVal s : Nat)
                  ((digitsVal f : Int) * Int.fdiv microsecondsC ((10 : Int) ^ f.length)))
              else none
            | _ => none
          else none
        | _ => none
      else none
    | _ => none

/-- Strict digit-only reading of the claimed format `[[D]D days,]HH:MM:SS[.ms]`:
an optional non-negative digit-only day count followed by `" days,"` or
`" day,"` and optional spaces, then `strictHMS`. -/
def strictParse (v : Str) : Option Relativedelta :=
  let d := v.takeWhile Char.isDigit
  if !d.isEmpty && (S " days,").isPrefixOf (v.drop d.length) then
    strictHMS (digitsVal d : Nat) (((v.drop d.length).drop 6).dropWhile (fun c => c = ' '))
  else if !d.isEmpty && (S " day,").isPrefixOf (v.drop d.length) then
    strictHMS (digitsVal d : Nat) (((v.drop d.length).drop 5).dropWhile (fun c => c = ' '))
  else strictHMS 0 v

/-- The message families C6 describes (as amended): the format instruction,
the three individually-worded `range_check` messages, the two tuple-unpacking
messages, and the float-conversion message of the no-colon branch. -/
def errMsgFamily (e : Str) : Bool :=
  (S "please use [[DD]D days,]HH:MM:SS[.ms] instead of ").isPrefixOf e ||
  (S " is not an integer").isSuffixOf e ||
  containsSub (S " is less than ") e ||
  containsSub (S " is more than ") e ||
  e = S "too many values to unpack" ||
  e = S "need more than 1 value to unpack" ||
  (S "could not convert string to float: ").isPrefixOf e

/-!
## Lemma library: substring search and splitting
-/

theorem isPrefixOf_cons_cons (a b : Char) (as bs : Str) :
    (a :: as).isPrefixOf (b :: bs) = (a == b && as.isPrefixOf bs) := rfl

theorem isPrefixOf_append_self (a b : Str) : a.isPrefixOf (a ++ b) = true := by
  induction a with
  | nil => simp [List.isPrefixOf]
  | cons c r ih => simp [isPrefixOf_cons_cons, ih]

theorem isSuffixOf_append_self (a b : Str) : b.isSuffixOf (a ++ b) = true := by
  simp [List.isSuffixOf, List.reverse_append, isPrefixOf_append_self]

theorem containsSub_nil (sub : Str) : containsSub sub [] = sub.isEmpty := rfl

theorem containsSub_cons (sub : Str) (c : Char) (r : Str) :
    containsSub sub (c :: r) = (sub.isPrefixOf (c :: r) || containsSub sub r) := rfl

theorem splitFirst_nil (sep : Str) : splitFirst sep [] = none := rfl

theorem splitFirst_cons (sep : Str) (c : Char) (r : Str) :
    splitFirst sep (c :: r) =
      if sep.isPrefixOf (c :: r) then some ([], (c :: r).drop sep.length)
      else
        match splitFirst sep r with
        | some (pre, post) => some (c :: pre, post)
        | none => none := rfl

theorem splitFirst_post_length (c0 : Char) (cs s pre post : Str)
    (h : splitFirst (c0 :: cs) s = some (pre, post)) : post.length < s.length := by
  induction s generalizing pre post with
  | nil => simp [splitFirst] at h
  | cons c r ih =>
    rw [splitFirst_cons] at h
    by_cases hp : (c0 :: cs).isPrefixOf (c :: r) = true
    · simp only [hp, if_pos] at h
      obtain ⟨h1, h2⟩ := Prod.mk.injEq .. ▸ Option.some.injEq .. ▸ h
      subst h2
      simp [List.length_drop]
      omega
    · simp only [hp] at h
      simp at h
      match he : splitFirst (c0 :: cs) r with
      | some (p, q) =>
        rw [he] at h
        simp at h
        obtain ⟨h1, h2⟩ := h
        subst h2
        have := ih p q he
        simp
        omega
      | none => rw [he] at h; simp at h

theorem pySplitF_congr (c0 : Char) (cs : Str) :
    ∀ (f1 f2 : Nat) (s : Str), s.length < f1 → s.length < f2 →
      pySplitF (c0 :: cs) f1 s = pySplitF (c0 :: cs) f2 s := by
  intro f1
  induction f1 with
  | zero => intro f2 s h1 h2; omega
  | succ f ih =>
    intro f2 s h1 h2
    match f2 with
    | 0 => omega
    | f2' + 1 =>
      rw [pySplitF, pySplitF]
      match he : splitFirst (c0 :: cs) s with
      | none => rfl
      | some (pre, post) =>
        have hl := splitFirst_post_length c0 cs s pre post he
        simp only []
        rw [ih f2' post (by omega) (by omega)]

theorem pySplit_eq (c0 : Char) (cs s : Str) :
    pySplit (c0 :: cs) s =
      match splitFirst (c0 :: cs) s with
      | none => [s]
      | some (pre, post) => pre :: pySplit (c0 :: cs) post := by
  rw [pySplit, pySplitF]
  match he : splitFirst (c0 :: cs) s with
  | none => rfl
  | some (pre, post) =>
    have hl := splitFirst_post_length c0 cs s pre post he
    simp only []
    rw [pySplitF_congr c0 cs s.length (post.length + 1) post (by omega) (by omega)]
    rfl

theorem splitFirst_eq_none_iff (c0 : Char) (cs : Str) (s : Str) :
    splitFirst (c0 :: cs) s = none ↔ containsSub (c0 :: cs) s = false := by
  induction s with
  | nil => simp [splitFirst, containsSub]
  | cons c r ih =>
    rw [splitFirst_cons, containsSub_cons]
    by_cases hp : (c0 :: cs).isPrefixOf (c :: r) = true
    · simp [hp]
    · simp only [hp, if_neg, Bool.or_eq_false_iff]
      simp only [Bool.not_eq_true] at hp
      simp only [hp, true_and]
      rw [← ih]
      match he : splitFirst (c0 :: cs) r with
      | none => simp
      | some (pre, post) => simp

theorem pySplit_of_not_contains (c0 : Char) (cs s : Str)
    (h : containsSub (c0 :: cs) s = false) : pySplit (c0 :: cs) s = [s] := by
  rw [pySplit_eq, (splitFirst_eq_none_iff c0 cs s).2 h]

theorem splitFirst_append (c0 : Char) (cs a b : Str) (ha : c0 ∉ a) :
    splitFirst (c0 :: cs) (a ++ (c0 :: cs) ++ b) = some (a, b) := by
  induction a with
  | nil =>
    rw [List.nil_append, List.cons_append, splitFirst_cons]
    have hp : (c0 :: cs).isPrefixOf (c0 :: (cs ++ b)) = true := by
      simp [List.cons_append, isPrefixOf_append_self (c0 :: cs) b]
    simp only [hp, if_true]
    have hd : List.drop (c0 :: cs).length (c0 :: (cs ++ b)) = b := by
      simp [List.length_cons, List.drop_succ_cons, List.drop_left cs b]
    simp [hd]
  | cons x a' ih =>
    have hx : x ≠ c0 := fun h => ha (h ▸ List.mem_cons_self x a')
    have ha' : c0 ∉ a' := fun h => ha (List.mem_cons_of_mem x h)
    rw [List.cons_append, List.cons_append, splitFirst_cons]
    have hp : (c0 :: cs).isPrefixOf (x :: (a' ++ (c0 :: cs) ++ b)) = false := by
      rw [isPrefixOf_cons_cons]
      simp [Ne.symm hx]
    simp only [hp, Bool.false_eq_true, if_neg]
    rw [List.append_assoc] at ih ⊢
    rw [ih ha']
    simp

theorem pySplit_append (c0 : Char) (cs a b : Str) (ha : c0 ∉ a) :
    pySplit (c0 :: cs) (a ++ (c0 :: cs) ++ b) = a :: pySplit (c0 :: cs) b := by
  rw [pySplit_eq, splitFirst_append c0 cs a b ha]

theorem containsSub_not_mem (c0 : Char) (cs l : Str) (h : c0 ∉ l) :
    containsSub (c0 :: cs) l = false := by
  induction l with
  | nil => rfl
  | cons c r ih =>
    have hc : c ≠ c0 := fun hh => h (hh ▸ List.mem_cons_self c r)
    rw [containsSub_cons, isPrefixOf_cons_cons]
    simp [Ne.symm hc, ih (fun hh => h (List.mem_cons_of_mem c hh))]

theorem containsSub_append_right (sub a t : Str) (h : containsSub sub t = true) :
    containsSub sub (a ++ t) = true := by
  induction a with
  | nil => simpa
  | cons c r ih => rw [List.cons_append, containsSub_cons, ih]; simp

theorem containsSub_append_sep (c0 : Char) (cs b : Str) :
    containsSub (c0 :: cs) ((c0 :: cs) ++ b) = true := by
  match hb : (c0 :: cs) ++ b with
  | [] => simp at hb
  | c :: r => rw [containsSub_cons, ← hb]; simp [isPrefixOf_append_self]

theorem containsSub_skip (c0 : Char) (cs a b : Str) (ha : c0 ∉ a) :
    containsSub (c0 :: cs) (a ++ b) = containsSub (c0 :: cs) b := by
  induction a with
  | nil => rfl
  | cons x a' ih =>
    have hx : x ≠ c0 := fun h => ha (h ▸ List.mem_cons_self x a')
    rw [List.cons_append, containsSub_cons, isPrefixOf_cons_cons]
    simp [Ne.symm hx, ih (fun hh => ha (List.mem_cons_of_mem x hh))]

theorem containsSub_singleton (c : Char) (l : Str) :
    containsSub [c] l = l.contains c := by
  induction l with
  | nil => rfl
  | cons x r ih =>
    rw [containsSub_cons, isPrefixOf_cons_cons]
    simp only [List.isPrefixOf, Bool.and_true, ih]
    rfl

/-!
## Lemma library: stripping, digits, `int()`
-/

theorem dropWhile_append_of_all (p : Char → Bool) (a b : Str) (ha : a.all p = true) :
    (a ++ b).dropWhile p = b.dropWhile p := by
  induction a with
  | nil => rfl
  | cons c r ih =>
    simp only [List.all_cons, Bool.and_eq_true] at ha
    rw [List.cons_append, List.dropWhile_cons]
    simp [ha.1, ih ha.2]

theorem dropWhile_eq_self_of_all_not (p : Char → Bool) (l : Str)
    (h : l.all (fun c => !p c) = true) : l.dropWhile p = l := by
  match l with
  | [] => rfl
  | c :: r =>
    simp only [List.all_cons, Bool.and_eq_true, Bool.not_eq_true'] at h
    rw [List.dropWhile_cons]
    simp [h.1]

theorem pyStrip_spaces (sp1 core sp2 : Str)
    (h1 : sp1.all isSpacePy = true) (h2 : sp2.all isSpacePy = true)
    (h3 : core.all (fun c => !isSpacePy c) = true) :
    pyStrip (sp1 ++ core ++ sp2) = core := by
  rw [pyStrip, List.append_assoc, dropWhile_append_of_all _ _ _ h1]
  match core with
  | [] =>
    rw [List.nil_append]
    have hs2 : sp2.dropWhile isSpacePy = [] := by
      simpa using dropWhile_append_of_all isSpacePy sp2 [] h2
    simp [hs2]
  | c :: core' =>
    simp only [List.all_cons, Bool.and_eq_true, Bool.not_eq_true'] at h3
    rw [List.cons_append, List.dropWhile_cons]
    simp only [h3.1, Bool.false_eq_true, if_false]
    have hrevall : (core'.reverse ++ [c]).all (fun x => !isSpacePy x) = true := by
      rw [List.all_append, List.all_reverse]
      simp [h3.1, h3.2]
    rw [List.reverse_cons, List.reverse_append, List.append_assoc,
      dropWhile_append_of_all _ _ _ (by rw [List.all_reverse]; exact h2),
      dropWhile_eq_self_of_all_not _ _ hrevall]
    simp

theorem pyStrip_no_space (core : Str) (h : core.all (fun c => !isSpacePy c) = true) :
    pyStrip core = core := by
  have := pyStrip_spaces [] core [] rfl rfl h
  simpa using this

theorem digit_not_space (c : Char) (h : c.isDigit = true) : isSpacePy c = false := by
  by_contra hc
  simp only [Bool.not_eq_false, isSpacePy, Bool.or_eq_true, decide_eq_true_eq] at hc
  rcases hc with ((((rfl | rfl) | rfl) | rfl) | rfl) | rfl <;> simp [Char.isDigit] at h

theorem all_digit_not_space (d : Str) (h : d.all Char.isDigit = true) :
    d.all (fun c => !isSpacePy c) = true := by
  rw [List.all_eq_true] at h ⊢
  intro c hc
  simp [digit_not_space c (h c hc)]

theorem digit_ne_plus (c : Char) (h : c.isDigit = true) : c ≠ '+' := by
  rintro rfl; simp [Char.isDigit] at h

theorem digit_ne_minus (c : Char) (h : c.isDigit = true) : c ≠ '-' := by
  rintro rfl; simp [Char.isDigit] at h

theorem pyIntCore_digits (d : Str) (hne : d ≠ []) (hd : d.all Char.isDigit = true) :
    pyIntCore d = some (digitsVal d : Int) := by
  match d with
  | [] => exact absurd rfl hne
  | c :: r =>
    simp only [List.all_cons, Bool.and_eq_true] at hd
    rw [pyIntCore]
    simp [digit_ne_plus c hd.1, digit_ne_minus c hd.1, List.all_cons, hd.1, hd.2]

theorem pyInt_digits (d : Str) (hne : d ≠ []) (hd : d.all Char.isDigit = true) :
    pyInt d = some (digitsVal d : Int) := by
  rw [pyInt, pyStrip_no_space d (all_digit_not_space d hd)]
  exact pyIntCore_digits d hne hd

theorem digitsVal_lt (d : Str) (hd : d.all Char.isDigit = true) :
    digitsVal d < 10 ^ d.length := by
  induction d with
  | nil => simp [digitsVal]
  | cons c r ih =>
    simp only [List.all_cons, Bool.and_eq_true] at hd
    have hc : c.toNat - 48 < 10 := by
      have h := hd.1
      simp only [Char.isDigit, Bool.and_eq_true, decide_eq_true_eq] at h
      have h3 : c.val.toNat ≤ 57 := h.2
      show c.val.toNat - 48 < 10
      omega
    rw [digitsVal, List.length_cons, pow_succ]
    have := ih hd.2
    nlinarith [this, hc, pow_pos (by norm_num : (0:ℕ) < 10) r.length]

/-!
## Lemma library: takeWhile, numerals, `_fix` normalisation
-/

theorem takeWhile_append_of_all (p : Char → Bool) (a b : Str) (ha : a.all p = true) :
    (a ++ b).takeWhile p = a ++ b.takeWhile p := by
  induction a with
  | nil => rfl
  | cons c r ih =>
    simp only [List.all_cons, Bool.and_eq_true] at ha
    rw [List.cons_append, List.takeWhile_cons]
    simp [ha.1, ih ha.2]

theorem takeWhile_cons_neg (p : Char → Bool) (c : Char) (r : Str) (h : p c = false) :
    (c :: r).takeWhile p = [] := by
  rw [List.takeWhile_cons]
  simp [h]

theorem drop_takeWhile_length (p : Char → Bool) (l : Str) :
    l.drop (l.takeWhile p).length = l.dropWhile p := by
  induction l with
  | nil => rfl
  | cons c r ih =>
    rw [List.takeWhile_cons, List.dropWhile_cons]
    by_cases h : p c = true
    · simp [h, ih]
    · simp [h]

theorem takeWhile_all_decomp (p : Char → Bool) (l : Str) :
    l = l.takeWhile p ++ l.drop (l.takeWhile p).length := by
  rw [drop_takeWhile_length, List.takeWhile_append_dropWhile]

theorem drop_append_self (a b : Str) : (a ++ b).drop a.length = b := List.drop_left a b

theorem digitsVal_cons (c : Char) (r : Str) :
    digitsVal (c :: r) = (c.toNat - 48) * 10 ^ r.length + digitsVal r := rfl

theorem digitsVal_append_digit (a : Str) (c : Char) :
    digitsVal (a ++ [c]) = 10 * digitsVal a + (c.toNat - 48) := by
  induction a with
  | nil => simp [digitsVal]
  | cons x r ih =>
    rw [List.cons_append, digitsVal_cons, digitsVal_cons, ih]
    simp only [List.length_append, List.length_cons, List.length_nil]
    ring

theorem digitChar_toNat (d : Nat) (h : d < 10) : (digitChar d).toNat = 48 + d := by
  interval_cases d <;> decide

theorem digitChar_isDigit (d : Nat) (h : d < 10) : (digitChar d).isDigit = true := by
  interval_cases d <;> decide

theorem natDigitsF_spec (fuel n : Nat) (h : n < fuel) :
    natDigitsF fuel n ≠ [] ∧ (natDigitsF fuel n).all Char.isDigit = true ∧
      digitsVal (natDigitsF fuel n) = n := by
  induction fuel generalizing n with
  | zero => omega
  | succ f ih =>
    rw [natDigitsF]
    by_cases hn : n < 10
    · simp only [hn, if_true]
      refine ⟨by simp, ?_, ?_⟩
      · simp [digitChar_isDigit n hn]
      · simp [digitsVal, digitChar_toNat n hn]
    · simp only [hn, if_false]
      have hdiv : n / 10 < f := by omega
      obtain ⟨ih1, ih2, ih3⟩ := ih (n / 10) hdiv
      refine ⟨by simp, ?_, ?_⟩
      · rw [List.all_append, ih2]
        simp [digitChar_isDigit (n % 10) (Nat.mod_lt n (by omega))]
      · rw [digitsVal_append_digit, ih3, digitChar_toNat (n % 10) (Nat.mod_lt n (by omega))]
        omega

theorem natDigits_ne_nil (n : Nat) : natDigits n ≠ [] :=
  (natDigitsF_spec (n + 1) n (by omega)).1

theorem natDigits_all_digit (n : Nat) : (natDigits n).all Char.isDigit = true :=
  (natDigitsF_spec (n + 1) n (by omega)).2.1

theorem digitsVal_natDigits (n : Nat) : digitsVal (natDigits n) = n :=
  (natDigitsF_spec (n + 1) n (by omega)).2.2

theorem fixCarry_of_le (v : Int) (bound base : Nat) (h : v.natAbs ≤ bound) :
    fixCarry v bound base = (v, 0) := by
  rw [fixCarry]
  simp [Nat.not_lt.2 h]

theorem relativedelta_init_small (d h m s us : Int)
    (hm1 : 0 ≤ m) (hm2 : m ≤ 59) (hs1 : 0 ≤ s) (hs2 : s ≤ 59)
    (hu1 : 0 ≤ us) (hu2 : us ≤ 999999) (hh : 0 ≤ h) (hh2 : h ≤ 23) :
    relativedelta_init d h m s us = ⟨0, 0, d, h, m, s, us⟩ := by
  rw [relativedelta_init, relFix]
  simp only [fixCarry_of_le us 999999 1000000 (by omega),
    fixCarry_of_le (s + 0) 59 60 (by omega), fixCarry_of_le (m + 0) 59 60 (by omega),
    fixCarry_of_le (h + 0) 23 24 (by omega), fixCarry_of_le (0 : Int) 11 12 (by omega)]
  simp

theorem relativedelta_init_micro (d h m s us : Int)
    (hm1 : 0 ≤ m) (hm2 : m ≤ 59) (hs1 : 0 ≤ s) (hs2 : s ≤ 59)
    (hu1 : 0 ≤ us) (hu2 : us ≤ 999999) :
    (relativedelta_init d h m s us).microseconds = us ∧
      (relativedelta_init d h m s us).seconds = s ∧
      (relativedelta_init d h m s us).minutes = m := by
  rw [relativedelta_init, relFix]
  simp only [fixCarry_of_le us 999999 1000000 (by omega),
    fixCarry_of_le (s + 0) 59 60 (by omega), fixCarry_of_le (m + 0) 59 60 (by omega),
    fixCarry_of_le (0 : Int) 11 12 (by omega)]
  simp

theorem exceptToOption_eq_some (e : Except Str α) (a : α) :
    exceptToOption e = some a ↔ e = .ok a := by
  match e with
  | .ok b => simp [exceptToOption]
  | .error _ => simp [exceptToOption]

/-!
## Master correspondence between `to_python_str` and `lenientParse`
-/

theorem except_bind_ok (a : α) (f : α → Except Str β) :
    ((Except.ok a : Except Str α) >>= f) = f a := rfl

theorem except_bind_error (e : Str) (f : α → Except Str β) :
    ((Except.error e : Except Str α) >>= f) = .error e := rfl

theorem exceptToOption_ok (a : α) : exceptToOption (.ok a : Except Str α) = some a := rfl

theorem exceptToOption_pure (a : α) :
    exceptToOption (pure a : Except Str α) = some a := rfl

theorem exceptToOption_error (e : Str) : exceptToOption (.error e : Except Str α) = none := rfl

theorem pyNumToInt_s (st : Str) : pyNumToInt (.s st) = pyInt st := rfl

theorem pyNumToInt_i (n : Int) : pyNumToInt (.i n) = some n := rfl

theorem range_check_s_not_int (st : Str) (name : Str) (mn mx : Option Int)
    (h : pyInt st = none) :
    range_check (.s st) name mn mx = .error (st ++ S " is not an integer") := by
  rw [range_check, pyNumToInt_s, h, pyNumStr]

theorem range_check_s_min0 (st : Str) (name : Str) (v : Int)
    (h : pyInt st = some v) :
    range_check (.s st) name (some 0) none =
      if v < 0 then .error (intStr v ++ S " is less than " ++ intStr 0) else .ok v := by
  rw [range_check, pyNumToInt_s, h]

theorem range_check_s_minmax (st : Str) (name : Str) (mx : Int) (v : Int)
    (h : pyInt st = some v) :
    range_check (.s st) name (some 0) (some mx) =
      if v < 0 then .error (intStr v ++ S " is less than " ++ intStr 0)
      else if v > mx then .error (intStr v ++ S " is more than " ++ intStr mx)
      else .ok v := by
  rw [range_check, pyNumToInt_s, h]

theorem range_check_i_min0 (n : Int) (name : Str) :
    range_check (.i n) name (some 0) none =
      if n < 0 then .error (intStr n ++ S " is less than " ++ intStr 0) else .ok n := by
  rw [range_check, pyNumToInt_i]

theorem masterSec (d hv mv : Int) (s3 : Str)
    (hd : 0 ≤ d) (hh : 0 ≤ hv) (hm1 : 0 ≤ mv) (hm2 : mv ≤ 59) :
    exceptToOption (secStep d hv mv s3) =
      (lenientSec s3).bind
        (fun p => if rangesOK ⟨d, hv, mv, p.1, p.2⟩
                  then some (fieldsToRel ⟨d, hv, mv, p.1, p.2⟩) else none) := by
  rw [secStep, lenientSec]
  by_cases hdot : containsSub (S ".") s3 = true
  · rw [if_pos hdot, if_pos hdot]
    cases h2 : pySplit (S ".") s3 with
    | nil => rfl
    | cons q1 u1 =>
      cases u1 with
      | nil => rfl
      | cons q2 u2 =>
        cases u2 with
        | cons q3 u3 => rfl
        | nil =>
          dsimp only
          rw [except_bind_ok]
          cases hs : pyInt q1 with
          | none =>
            rw [range_check_s_not_int _ _ _ _ hs, except_bind_error, exceptToOption_error]
            rfl
          | some sv =>
            rw [range_check_s_minmax _ _ _ sv hs]
            by_cases hsv1 : sv < 0
            · rw [if_pos hsv1, except_bind_error, exceptToOption_error, Option.some_bind]
              cases hf : pyInt q2 with
              | none => rfl
              | some fv =>
                simp only [Option.map_some', Option.some_bind]
                rw [if_neg]
                simp only [rangesOK, Option.all_some, Bool.and_eq_true, decide_eq_true_eq]
                omega
            · rw [if_neg hsv1]
              by_cases hsv2 : sv > 59
              · rw [if_pos hsv2, except_bind_error, exceptToOption_error, Option.some_bind]
                cases hf : pyInt q2 with
                | none => rfl
                | some fv =>
                  simp only [Option.map_some', Option.some_bind]
                  rw [if_neg]
                  simp only [rangesOK, Option.all_some, Bool.and_eq_true, decide_eq_true_eq]
                  omega
              · rw [if_neg hsv2, except_bind_ok, Option.some_bind]
                cases hf : pyInt q2 with
                | none =>
                  rw [range_check_s_not_int _ _ _ _ hf, except_bind_error, exceptToOption_error]
                  rfl
                | some fv =>
                  rw [range_check_s_minmax _ _ _ fv hf]
                  simp only [Option.map_some', Option.some_bind]
                  by_cases hfv1 : fv < 0
                  · rw [if_pos hfv1, except_bind_error, exceptToOption_error]
                    rw [if_neg]
                    simp only [rangesOK, Option.all_some, Bool.and_eq_true, decide_eq_true_eq]
                    omega
                  · rw [if_neg hfv1]
                    by_cases hfv2 : fv > microsecondsC
                    · rw [if_pos hfv2, except_bind_error, exceptToOption_error]
                      rw [if_neg]
                      simp only [rangesOK, Option.all_some, Bool.and_eq_true,
                        decide_eq_true_eq]
                      omega
                    · rw [if_neg hfv2, except_bind_ok, exceptToOption_pure]
                      rw [if_pos]
                      · rfl
                      · simp only [rangesOK, Option.all_some, Bool.and_eq_true,
                          decide_eq_true_eq]
                        omega
  · rw [if_neg hdot, if_neg hdot, except_bind_ok]
    dsimp only
    cases hs : pyInt s3 with
    | none =>
      rw [range_check_s_not_int _ _ _ _ hs, except_bind_error, exceptToOption_error]
      rfl
    | some sv =>
      rw [range_check_s_minmax _ _ _ sv hs]
      simp only [Option.map_some', Option.some_bind]
      by_cases hsv1 : sv < 0
      · rw [if_pos hsv1, except_bind_error, exceptToOption_error]
        rw [if_neg]
        simp only [rangesOK, Option.all_none, Bool.and_eq_true, decide_eq_true_eq]
        omega
      · rw [if_neg hsv1]
        by_cases hsv2 : sv > 59
        · rw [if_pos hsv2, except_bind_error, exceptToOption_error]
          rw [if_neg]
          simp only [rangesOK, Option.all_none, Bool.and_eq_true, decide_eq_true_eq]
          omega
        · rw [if_neg hsv2, except_bind_ok]
          have h0 : pyInt (S "0") = some 0 := rfl
          rw [range_check_s_minmax _ _ _ 0 h0]
          rw [if_neg (by omega : ¬((0:Int) < 0)),
            if_neg (by decide : ¬((0:Int) > microsecondsC)), except_bind_ok,
            exceptToOption_pure]
          rw [if_pos]
          · simp [fieldsToRel, fieldsMicro]
          · simp only [rangesOK, Option.all_none, Bool.and_eq_true, decide_eq_true_eq,
              Bool.and_true]
            omega

theorem masterHMS (d : Int) (rest : Str) (hd : 0 ≤ d) :
    exceptToOption (hmsStep d rest) =
      (lenientHMS d rest).bind
        (fun f => if rangesOK f then some (fieldsToRel f) else none) := by
  rw [hmsStep, lenientHMS]
  cases h3 : pySplit (S ":") rest with
  | nil => rfl
  | cons p1 t1 =>
    cases t1 with
    | nil => rfl
    | cons p2 t2 =>
      cases t2 with
      | nil => rfl
      | cons p3 t3 =>
        cases t3 with
        | cons p4 t4 => rfl
        | nil =>
          dsimp only
          rw [except_bind_ok]
          cases hh : pyInt p1 with
          | none =>
            rw [range_check_s_not_int _ _ _ _ hh, except_bind_error, exceptToOption_error]
            rfl
          | some hv =>
            rw [range_check_s_min0 _ _ hv hh]
            by_cases hhv : hv < 0
            · rw [if_pos hhv, except_bind_error, exceptToOption_error, Option.some_bind]
              cases hm : pyInt p2 with
              | none => rfl
              | some mv =>
                rw [Option.some_bind]
                cases hsec : lenientSec p3 with
                | none => rfl
                | some p =>
                  simp only [Option.map_some', Option.some_bind]
                  rw [if_neg]
                  simp only [rangesOK, Bool.and_eq_true, decide_eq_true_eq]
                  omega
            · rw [if_neg hhv, except_bind_ok, Option.some_bind]
              cases hm : pyInt p2 with
              | none =>
                rw [range_check_s_not_int _ _ _ _ hm, except_bind_error, exceptToOption_error]
                rfl
              | some mv =>
                rw [range_check_s_minmax _ _ _ mv hm, Option.some_bind]
                by_cases hmv1 : mv < 0
                · rw [if_pos hmv1, except_bind_error, exceptToOption_error]
                  cases hsec : lenientSec p3 with
                  | none => rfl
                  | some p =>
                    simp only [Option.map_some', Option.some_bind]
                    rw [if_neg]
                    simp only [rangesOK, Bool.and_eq_true, decide_eq_true_eq]
                    omega
                · rw [if_neg hmv1]
                  by_cases hmv2 : mv > 59
                  · rw [if_pos hmv2, except_bind_error, exceptToOption_error]
                    cases hsec : lenientSec p3 with
                    | none => rfl
                    | some p =>
                      simp only [Option.map_some', Option.some_bind]
                      rw [if_neg]
                      simp only [rangesOK, Bool.and_eq_true, decide_eq_true_eq]
                      omega
                  · rw [if_neg hmv2, except_bind_ok]
                    have := masterSec d hv mv p3 hd (by omega) (by omega) (by omega)
                    rw [this]
                    cases hsec : lenientSec p3 with
                    | none => rfl
                    | some p => simp only [Option.map_some', Option.some_bind]

theorem except_map_error (e : Str) (f : α → β) :
    (Except.error e : Except Str α).map f = .error e := rfl

theorem except_map_ok (a : α) (f : α → β) :
    (Except.ok a : Except Str α).map f = .ok (f a) := rfl

theorem lenientHMS_days (d : Int) (rest : Str) (f : RawFields)
    (h : lenientHMS d rest = some f) : f.days = d := by
  rw [lenientHMS] at h
  rcases h3 : pySplit (S ":") rest with _ | ⟨p1, _ | ⟨p2, _ | ⟨p3, _ | ⟨p4, t4⟩⟩⟩⟩ <;>
    rw [h3] at h <;> try simp at h
  simp only [Option.bind_eq_some, Option.map_eq_some'] at h
  obtain ⟨hv, _, mv, _, p, _, hfeq⟩ := h
  rw [← hfeq]

theorem master (v : Str) : exceptToOption (to_python_str v) = lenientParse v := by
  rw [to_python_str, lenientParse, lenientFields, dayPrefixStep]
  dsimp only
  by_cases h1 : containsSub (S "days,") v = true
  · rw [if_pos (show (containsSub (S "days,") v || containsSub (S "day,") v) = true
        by simp [h1]), if_pos h1, if_pos h1]
    rcases h2 : pySplit (S "days,") v with _ | ⟨d1, _ | ⟨r1, _ | ⟨x1, t1⟩⟩⟩ <;> dsimp only
    · rfl
    · rfl
    · cases hdi : pyInt (pyStrip d1) with
      | none => rw [except_bind_error]; rfl
      | some dv =>
        dsimp only
        rw [range_check_i_min0]
        by_cases hdv : dv < 0
        · rw [if_pos hdv, except_map_error, except_bind_error, exceptToOption_error]
          simp only [Option.some_bind]
          cases hlh : lenientHMS dv (pyStrip r1) with
          | none => rfl
          | some f =>
            simp only [Option.some_bind]
            rw [if_neg]
            have := lenientHMS_days dv (pyStrip r1) f hlh
            simp only [rangesOK, Bool.and_eq_true, decide_eq_true_eq, this]
            omega
        · rw [if_neg hdv, except_map_ok, except_bind_ok]
          exact masterHMS dv (pyStrip r1) (by omega)
    · rfl
  · by_cases h2 : containsSub (S "day,") v = true
    · rw [if_pos (show (containsSub (S "days,") v || containsSub (S "day,") v) = true
          by simp [h2]), if_neg (by simp [h1]), if_neg (by simp [h1]), if_pos h2]
      rcases h3 : pySplit (S "day,") v with _ | ⟨d1, _ | ⟨r1, _ | ⟨x1, t1⟩⟩⟩ <;> dsimp only
      · rfl
      · rfl
      · cases hdi : pyInt (pyStrip d1) with
        | none => rw [except_bind_error]; rfl
        | some dv =>
          dsimp only
          rw [range_check_i_min0]
          by_cases hdv : dv < 0
          · rw [if_pos hdv, except_map_error, except_bind_error, exceptToOption_error]
            simp only [Option.some_bind]
            cases hlh : lenientHMS dv (pyStrip r1) with
            | none => rfl
            | some f =>
              simp only [Option.some_bind]
              rw [if_neg]
              have := lenientHMS_days dv (pyStrip r1) f hlh
              simp only [rangesOK, Bool.and_eq_true, decide_eq_true_eq, this]
              omega
          · rw [if_neg hdv, except_map_ok, except_bind_ok]
            exact masterHMS dv (pyStrip r1) (by omega)
      · rfl
    · rw [if_neg (by simp [h1, h2]), if_neg (by simp [h1]), if_neg (by simp [h2]),
        except_bind_ok]
      exact masterHMS 0 v (by omega)

/-!
## The strict digit-only shape is accepted by the parser
-/

theorem all_takeWhile (p : Char → Bool) (l : Str) : (l.takeWhile p).all p = true := by
  induction l with
  | nil => rfl
  | cons c r ih =>
    rw [List.takeWhile_cons]
    by_cases h : p c = true
    · simp [h, ih]
    · simp [h]

theorem strictHMS_inv (d : Int) (v : Str) (r : Relativedelta) (hp : strictHMS d v = some r) :
    ∃ hh mm ss tail,
      v = hh ++ ':' :: (mm ++ ':' :: (ss ++ tail)) ∧
      hh ≠ [] ∧ hh.all Char.isDigit = true ∧
      mm ≠ [] ∧ mm.all Char.isDigit = true ∧ digitsVal mm ≤ 59 ∧
      ss ≠ [] ∧ ss.all Char.isDigit = true ∧ digitsVal ss ≤ 59 ∧
      ((tail = [] ∧
          r = relativedelta_init d (digitsVal hh : Nat) (digitsVal mm : Nat)
            (digitsVal ss : Nat) 0) ∨
        (∃ f, tail = '.' :: f ∧ f ≠ [] ∧ f.all Char.isDigit = true ∧ f.length ≤ 6 ∧
          r = relativedelta_init d (digitsVal hh : Nat) (digitsVal mm : Nat)
            (digitsVal ss : Nat)
            ((digitsVal f : Int) * Int.fdiv microsecondsC ((10 : Int) ^ f.length)))) := by
  rw [strictHMS] at hp
  dsimp only at hp
  split at hp
  · exact absurd hp (by simp)
  · rename_i hhne
    split at hp
    · rename_i r1 heq1
      split at hp
      · rename_i hmcond
        split at hp
        · rename_i r2 heq2
          split at hp
          · rename_i hscond
            split at hp
            · rename_i heq3
              refine ⟨v.takeWhile Char.isDigit, r1.takeWhile Char.isDigit,
                r2.takeWhile Char.isDigit, [], ?_, ?_, all_takeWhile _ _,
                ?_, all_takeWhile _ _, ?_, ?_, all_takeWhile _ _, ?_, ?_⟩
              · conv_lhs => rw [takeWhile_all_decomp Char.isDigit v]
                rw [heq1]
                congr 1
                congr 1
                conv_lhs => rw [takeWhile_all_decomp Char.isDigit r1]
                rw [heq2]
                congr 1
                congr 1
                conv_lhs => rw [takeWhile_all_decomp Char.isDigit r2]
                rw [heq3, List.append_nil]
              · simpa using hhne
              · simp only [Bool.and_eq_true, decide_eq_true_eq] at hmcond
                intro hc
                rw [hc] at hmcond
                simp at hmcond
              · simp only [Bool.and_eq_true, decide_eq_true_eq] at hmcond
                exact hmcond.2
              · simp only [Bool.and_eq_true, decide_eq_true_eq] at hscond
                intro hc
                rw [hc] at hscond
                simp at hscond
              · simp only [Bool.and_eq_true, decide_eq_true_eq] at hscond
                exact hscond.2
              · left
                refine ⟨rfl, ?_⟩
                simp only [Option.some.injEq] at hp
                exact hp.symm
            · rename_i f heq3
              split at hp
              · rename_i hfcond
                simp only [Bool.and_eq_true, Bool.not_eq_true', List.isEmpty_eq_false,
                  decide_eq_true_eq] at hfcond
                refine ⟨v.takeWhile Char.isDigit, r1.takeWhile Char.isDigit,
                  r2.takeWhile Char.isDigit, '.' :: f, ?_, ?_, all_takeWhile _ _,
                  ?_, all_takeWhile _ _, ?_, ?_, all_takeWhile _ _, ?_, ?_⟩
                · conv_lhs => rw [takeWhile_all_decomp Char.isDigit v]
                  rw [heq1]
                  congr 1
                  congr 1
                  conv_lhs => rw [takeWhile_all_decomp Char.isDigit r1]
                  rw [heq2]
                  congr 1
                  congr 1
                  conv_lhs => rw [takeWhile_all_decomp Char.isDigit r2]
                  rw [heq3]
                · simpa using hhne
                · simp only [Bool.and_eq_true, decide_eq_true_eq] at hmcond
                  intro hc
                  rw [hc] at hmcond
                  simp at hmcond
                · simp only [Bool.and_eq_true, decide_eq_true_eq] at hmcond
                  exact hmcond.2
                · simp only [Bool.and_eq_true, decide_eq_true_eq] at hscond
                  intro hc
                  rw [hc] at hscond
                  simp at hscond
                · simp only [Bool.and_eq_true, decide_eq_true_eq] at hscond
                  exact hscond.2
                · right
                  refine ⟨f, rfl, hfcond.1.1, hfcond.1.2, hfcond.2, ?_⟩
                  simp only [Option.some.injEq] at hp
                  exact hp.symm
              · exact absurd hp (by simp)
            · exact absurd hp (by simp)
          · exact absurd hp (by simp)
        · exact absurd hp (by simp)
      · exact absurd hp (by simp)
    · exact absurd hp (by simp)

theorem not_mem_of_all (p : Char → Bool) (l : Str) (hl : l.all p = true) (c : Char)
    (hc : p c = false) : c ∉ l := by
  intro hm
  have := List.all_eq_true.mp hl c hm
  rw [hc] at this
  cases this

theorem lenientHMS_of_strict (d : Int) (body : Str) (r : Relativedelta)
    (hd : 0 ≤ d) (h : strictHMS d body = some r) :
    ∃ f, lenientHMS d body = some f ∧ rangesOK f = true ∧ fieldsToRel f = r := by
  obtain ⟨hh, mm, ss, tail, hdec, hhne, hhdig, hmne, hmdig, hmle, hsne, hsdig, hsle, hcase⟩ :=
    strictHMS_inv d body r h
  have hcolhh : ':' ∉ hh := not_mem_of_all _ _ hhdig ':' (by decide)
  have hcolmm : ':' ∉ mm := not_mem_of_all _ _ hmdig ':' (by decide)
  have hcolss : ':' ∉ ss := not_mem_of_all _ _ hsdig ':' (by decide)
  have hcoltail : ':' ∉ tail := by
    rcases hcase with ⟨rfl, _⟩ | ⟨f, rfl, hfne, hfdig, _, _⟩
    · simp
    · intro hm
      rcases List.mem_cons.mp hm with h1 | h1
      · cases h1
      · exact not_mem_of_all _ _ hfdig ':' (by decide) h1
  have hcols2 : ':' ∉ ss ++ tail := by
    intro hm
    rcases List.mem_append.mp hm with h1 | h1
    · exact hcolss h1
    · exact hcoltail h1
  have hbody : body = hh ++ (':' :: []) ++ (mm ++ (':' :: []) ++ (ss ++ tail)) := by
    rw [hdec]; simp
  have hsplit : pySplit (S ":") body = [hh, mm, ss ++ tail] := by
    show pySplit (':' :: []) body = _
    rw [hbody, pySplit_append ':' [] hh _ hcolhh, pySplit_append ':' [] mm _ hcolmm,
      pySplit_of_not_contains ':' [] _ (containsSub_not_mem ':' [] _ hcols2)]
  have hph : pyInt hh = some ((digitsVal hh : Nat) : Int) := pyInt_digits hh hhne hhdig
  have hpm : pyInt mm = some ((digitsVal mm : Nat) : Int) := pyInt_digits mm hmne hmdig
  rcases hcase with ⟨htail, hr⟩ | ⟨f, htail, hfne, hfdig, hflen, hr⟩
  · subst htail
    have hnodot : containsSub (S ".") (ss ++ []) = false := by
      rw [List.append_nil]
      exact containsSub_not_mem '.' [] ss (not_mem_of_all _ _ hsdig '.' (by decide))
    have hsec : lenientSec (ss ++ []) = some (((digitsVal ss : Nat) : Int), none) := by
      rw [lenientSec, if_neg (by rw [hnodot]; simp), List.append_nil,
        pyInt_digits ss hsne hsdig, Option.map_some']
    refine ⟨⟨d, (digitsVal hh : Nat), (digitsVal mm : Nat), (digitsVal ss : Nat), none⟩,
      ?_, ?_, ?_⟩
    · rw [lenientHMS, hsplit]
      simp only [hph, hpm, hsec, Option.some_bind, Option.map_some']
    · simp only [rangesOK, Option.all_none, Bool.and_eq_true, decide_eq_true_eq,
        Bool.and_true]
      omega
    · rw [hr, fieldsToRel]
      rfl
  · subst htail
    have hdotss : '.' ∉ ss := not_mem_of_all _ _ hsdig '.' (by decide)
    have hdotf : '.' ∉ f := not_mem_of_all _ _ hfdig '.' (by decide)
    have hs2 : ss ++ '.' :: f = ss ++ ('.' :: []) ++ f := by simp
    have hdot : containsSub (S ".") (ss ++ '.' :: f) = true := by
      show containsSub ('.' :: []) _ = true
      rw [hs2, List.append_assoc]
      exact containsSub_append_right _ ss _ (containsSub_append_sep '.' [] f)
    have hsplit2 : pySplit (S ".") (ss ++ '.' :: f) = [ss, f] := by
      show pySplit ('.' :: []) _ = _
      rw [hs2, pySplit_append '.' [] ss f hdotss,
        pySplit_of_not_contains '.' [] f (containsSub_not_mem '.' [] f hdotf)]
    have hsec : lenientSec (ss ++ '.' :: f) =
        some (((digitsVal ss : Nat) : Int), some (((digitsVal f : Nat) : Int), f.length)) := by
      rw [lenientSec, if_pos hdot, hsplit2]
      simp only [pyInt_digits ss hsne hsdig, pyInt_digits f hfne hfdig, Option.some_bind,
        Option.map_some']
    have hfbound : ((digitsVal f : Nat) : Int) ≤ microsecondsC := by
      have h1 : digitsVal f < 10 ^ f.length := digitsVal_lt f hfdig
      have h2 : (10:ℕ) ^ f.length ≤ 10 ^ 6 := Nat.pow_le_pow_right (by omega) hflen
      have h3 : digitsVal f < 1000000 := by
        calc digitsVal f < 10 ^ f.length := h1
        _ ≤ 10 ^ 6 := h2
        _ = 1000000 := by norm_num
      show ((digitsVal f : Nat) : Int) ≤ 1000000
      exact_mod_cast h3.le
    refine ⟨⟨d, (digitsVal hh : Nat), (digitsVal mm : Nat), (digitsVal ss : Nat),
      some (((digitsVal f : Nat) : Int), f.length)⟩, ?_, ?_, ?_⟩
    · rw [lenientHMS, hsplit]
      simp only [hph, hpm, hsec, Option.some_bind, Option.map_some']
    · simp only [rangesOK, Option.all_some, Bool.and_eq_true, decide_eq_true_eq,
        microsecondsC] at hfbound ⊢
      omega
    · rw [hr, fieldsToRel]
      rfl

theorem strictHMS_chars (d : Int) (body : Str) (r : Relativedelta)
    (h : strictHMS d body = some r) :
    ∀ c ∈ body, c.isDigit = true ∨ c = ':' ∨ c = '.' := by
  obtain ⟨hh, mm, ss, tail, hdec, _, hhdig, _, hmdig, _, _, hsdig, _, hcase⟩ :=
    strictHMS_inv d body r h
  intro c hc
  rw [hdec] at hc
  rcases List.mem_append.mp hc with h1 | h1
  · exact Or.inl (List.all_eq_true.mp hhdig c h1)
  · rcases List.mem_cons.mp h1 with rfl | h1
    · exact Or.inr (Or.inl rfl)
    · rcases List.mem_append.mp h1 with h2 | h2
      · exact Or.inl (List.all_eq_true.mp hmdig c h2)
      · rcases List.mem_cons.mp h2 with rfl | h2
        · exact Or.inr (Or.inl rfl)
        · rcases List.mem_append.mp h2 with h3 | h3
          · exact Or.inl (List.all_eq_true.mp hsdig c h3)
          · rcases hcase with ⟨rfl, _⟩ | ⟨f, rfl, _, hfdig, _, _⟩
            · cases h3
            · rcases List.mem_cons.mp h3 with rfl | h3
              · exact Or.inr (Or.inr rfl)
              · exact Or.inl (List.all_eq_true.mp hfdig c h3)

theorem strictHMS_no_d (d : Int) (body : Str) (r : Relativedelta)
    (h : strictHMS d body = some r) : 'd' ∉ body := by
  intro hm
  rcases strictHMS_chars d body r h 'd' hm with h1 | h1 | h1
  · exact absurd h1 (by decide)
  · exact absurd h1 (by decide)
  · exact absurd h1 (by decide)

theorem strictHMS_no_space (d : Int) (body : Str) (r : Relativedelta)
    (h : strictHMS d body = some r) : body.all (fun c => !isSpacePy c) = true := by
  rw [List.all_eq_true]
  intro c hm
  rcases strictHMS_chars d body r h c hm with h1 | rfl | rfl
  · simp [digit_not_space c h1]
  · decide
  · decide

theorem spaces_all (u : Str) :
    (u.takeWhile (fun c => c = ' ')).all isSpacePy = true := by
  rw [List.all_eq_true]
  intro c hm
  have := List.all_eq_true.mp (all_takeWhile (fun c => decide (c = ' ')) u) c hm
  simp only [decide_eq_true_eq] at this
  rw [this]
  decide

theorem spaces_no_d (u : Str) : 'd' ∉ u.takeWhile (fun c => c = ' ') := by
  intro hm
  have := List.all_eq_true.mp (all_takeWhile (fun c => decide (c = ' ')) u) 'd' hm
  simp at this

theorem strict_sound (v : Str) (r : Relativedelta) (h : strictParse v = some r) :
    lenientParse v = some r := by
  rw [strictParse] at h
  split at h
  · -- " days," prefix branch
    rename_i hcond
    simp only [Bool.and_eq_true, Bool.not_eq_true', List.isEmpty_eq_false] at hcond
    obtain ⟨hdne, hpref⟩ := hcond
    set dstr := v.takeWhile Char.isDigit with hdstr
    have hddig : dstr.all Char.isDigit = true := all_takeWhile _ _
    obtain ⟨u2, hu2⟩ := List.isPrefixOf_iff_prefix.mp hpref
    have hvd : v.drop dstr.length = S " days," ++ u2 := hu2.symm
    have hdrop6 : (v.drop dstr.length).drop 6 = u2 := by
      rw [hvd]
      exact drop_append_self (S " days,") u2
    rw [hdrop6] at h
    set sp := u2.takeWhile (fun c => c = ' ') with hsp
    set body := u2.dropWhile (fun c => c = ' ') with hbody
    have hu2dec : u2 = sp ++ body := by rw [hsp, hbody, List.takeWhile_append_dropWhile]
    have hvdec : v = dstr ++ S " days," ++ u2 := by
      conv_lhs => rw [takeWhile_all_decomp Char.isDigit v]
      rw [← hdstr, hvd, List.append_assoc]
    obtain ⟨f, hlf, hro, hfr⟩ := lenientHMS_of_strict ((digitsVal dstr : Nat) : Int) body r
      (by positivity) h
    have hnod_body : 'd' ∉ body := strictHMS_no_d _ _ _ h
    have hnospace : body.all (fun c => !isSpacePy c) = true := strictHMS_no_space _ _ _ h
    have hnod_d : 'd' ∉ dstr ++ [' '] := by
      intro hm
      rcases List.mem_append.mp hm with h1 | h1
      · have := List.all_eq_true.mp hddig 'd' h1
        exact absurd this (by decide)
      · rcases List.mem_cons.mp h1 with h2 | h2
        · exact absurd h2 (by decide)
        · cases h2
    have hnod_b : 'd' ∉ sp ++ body := by
      intro hm
      rcases List.mem_append.mp hm with h1 | h1
      · exact spaces_no_d u2 h1
      · exact hnod_body h1
    have hvdec2 : v = (dstr ++ [' ']) ++ (('d' :: S "ays,") ++ (sp ++ body)) := by
      rw [hvdec, hu2dec]
      have : S " days," = [' '] ++ ('d' :: S "ays,") := rfl
      rw [this]
      simp [List.append_assoc]
    have hdays : containsSub (S "days,") v = true := by
      show containsSub ('d' :: S "ays,") v = true
      rw [hvdec2]
      exact containsSub_append_right _ _ _ (containsSub_append_sep 'd' (S "ays,") (sp ++ body))
    have hsplitv : pySplit (S "days,") v = [dstr ++ [' '], sp ++ body] := by
      show pySplit ('d' :: S "ays,") v = _
      rw [hvdec2, ← List.append_assoc]
      rw [pySplit_append 'd' (S "ays,") (dstr ++ [' ']) (sp ++ body) hnod_d,
        pySplit_of_not_contains 'd' (S "ays,") _ (containsSub_not_mem 'd' (S "ays,") _ hnod_b)]
    have hstripd : pyStrip (dstr ++ [' ']) = dstr := by
      have := pyStrip_spaces [] dstr [' '] rfl (by decide)
        (all_digit_not_space dstr hddig)
      simpa using this
    have hstripb : pyStrip (sp ++ body) = body := by
      have := pyStrip_spaces sp body [] (spaces_all u2) rfl hnospace
      simpa using this
    have hpd : pyInt (pyStrip (dstr ++ [' '])) = some ((digitsVal dstr : Nat) : Int) := by
      rw [hstripd]
      exact pyInt_digits dstr hdne hddig
    rw [lenientParse, lenientFields, if_pos hdays, hsplitv]
    simp only [hpd, Option.some_bind, hstripb, hlf, hro, if_true, hfr]
  · rename_i hcond1
    split at h
    · -- " day," prefix branch
      rename_i hcond
      simp only [Bool.and_eq_true, Bool.not_eq_true', List.isEmpty_eq_false] at hcond
      obtain ⟨hdne, hpref⟩ := hcond
      set dstr := v.takeWhile Char.isDigit with hdstr
      have hddig : dstr.all Char.isDigit = true := all_takeWhile _ _
      obtain ⟨u2, hu2⟩ := List.isPrefixOf_iff_prefix.mp hpref
      have hvd : v.drop dstr.length = S " day," ++ u2 := hu2.symm
      have hdrop5 : (v.drop dstr.length).drop 5 = u2 := by
        rw [hvd]
        exact drop_append_self (S " day,") u2
      rw [hdrop5] at h
      set sp := u2.takeWhile (fun c => c = ' ') with hsp
      set body := u2.dropWhile (fun c => c = ' ') with hbody
      have hu2dec : u2 = sp ++ body := by
        rw [hsp, hbody, List.takeWhile_append_dropWhile]
      have hvdec : v = dstr ++ S " day," ++ u2 := by
        conv_lhs => rw [takeWhile_all_decomp Char.isDigit v]
        rw [← hdstr, hvd, List.append_assoc]
      obtain ⟨f, hlf, hro, hfr⟩ := lenientHMS_of_strict ((digitsVal dstr : Nat) : Int) body r
        (by positivity) h
      have hnod_body : 'd' ∉ body := strictHMS_no_d _ _ _ h
      have hnospace : body.all (fun c => !isSpacePy c) = true := strictHMS_no_space _ _ _ h
      have hnod_d : 'd' ∉ dstr ++ [' '] := by
        intro hm
        rcases List.mem_append.mp hm with h1 | h1
        · have := List.all_eq_true.mp hddig 'd' h1
          exact absurd this (by decide)
        · rcases List.mem_cons.mp h1 with h2 | h2
          · exact absurd h2 (by decide)
          · cases h2
      have hnod_b : 'd' ∉ sp ++ body := by
        intro hm
        rcases List.mem_append.mp hm with h1 | h1
        · exact spaces_no_d u2 h1
        · exact hnod_body h1
      have hvdec2 : v = (dstr ++ [' ']) ++ (('d' :: S "ay,") ++ (sp ++ body)) := by
        rw [hvdec, hu2dec]
        have : S " day," = [' '] ++ ('d' :: S "ay,") := rfl
        rw [this]
        simp [List.append_assoc]
      have hnodays : containsSub (S "days,") v = false := by
        show containsSub ('d' :: S "ays,") v = false
        rw [hvdec2, containsSub_skip 'd' (S "ays,") _ _ hnod_d,
          show ('d' :: S "ay,") ++ (sp ++ body) = 'd' :: 'a' :: 'y' :: ',' :: (sp ++ body)
            from rfl,
          containsSub_cons]
        have h1 : ('d' :: S "ays,").isPrefixOf
            ('d' :: 'a' :: 'y' :: ',' :: (sp ++ body)) = false := by
          simp [isPrefixOf_cons_cons, List.isPrefixOf, show (('s' : Char) == ',') = false
            from rfl]
        rw [h1]
        have h3 : containsSub ('d' :: S "ays,") ('a' :: 'y' :: ',' :: (sp ++ body)) = false := by
          rw [show ('a' :: 'y' :: ',' :: (sp ++ body)) = ['a', 'y', ','] ++ (sp ++ body)
              from rfl,
            containsSub_skip 'd' (S "ays,") _ _ (by decide)]
          exact containsSub_not_mem 'd' (S "ays,") _ hnod_b
        rw [h3]
        simp
      have hday : containsSub (S "day,") v = true := by
        show containsSub ('d' :: S "ay,") v = true
        rw [hvdec2]
        exact containsSub_append_right _ _ _ (containsSub_append_sep 'd' (S "ay,") (sp ++ body))
      have hsplitv : pySplit (S "day,") v = [dstr ++ [' '], sp ++ body] := by
        show pySplit ('d' :: S "ay,") v = _
        rw [hvdec2, ← List.append_assoc]
        rw [pySplit_append 'd' (S "ay,") (dstr ++ [' ']) (sp ++ body) hnod_d,
          pySplit_of_not_contains 'd' (S "ay,") _ (containsSub_not_mem 'd' (S "ay,") _ hnod_b)]
      have hstripd : pyStrip (dstr ++ [' ']) = dstr := by
        have := pyStrip_spaces [] dstr [' '] rfl (by decide)
          (all_digit_not_space dstr hddig)
        simpa using this
      have hstripb : pyStrip (sp ++ body) = body := by
        have := pyStrip_spaces sp body [] (spaces_all u2) rfl hnospace
        simpa using this
      have hpd : pyInt (pyStrip (dstr ++ [' '])) = some ((digitsVal dstr : Nat) : Int) := by
        rw [hstripd]
        exact pyInt_digits dstr hdne hddig
      rw [lenientParse, lenientFields, if_neg (by rw [hnodays]; simp), if_pos hday, hsplitv]
      simp only [hpd, Option.some_bind, hstripb, hlf, hro, if_true, hfr]
    · -- no day prefix
      rename_i hcond2
      obtain ⟨f, hlf, hro, hfr⟩ := lenientHMS_of_strict 0 v r (by omega) h
      have hnod : 'd' ∉ v := strictHMS_no_d _ _ _ h
      rw [lenientParse, lenientFields,
        if_neg (by rw [show containsSub (S "days,") v = containsSub ('d' :: S "ays,") v from rfl,
          containsSub_not_mem 'd' (S "ays,") v hnod]; simp),
        if_neg (by rw [show containsSub (S "day,") v = containsSub ('d' :: S "ay,") v from rfl,
          containsSub_not_mem 'd' (S "ay,") v hnod]; simp)]
      simp only [hlf, Option.some_bind, hro, if_true, hfr]

theorem strictHMS_concrete (d : Int) : strictHMS d (S "00:00:00") = some (relativedelta_init d 0 0 0 0) := rfl

theorem natDigits_isEmpty (n : Nat) : (natDigits n).isEmpty = false := by
  rw [List.isEmpty_eq_false]
  exact natDigits_ne_nil n

theorem strictParse_hours (n : Nat) :
    strictParse (natDigits n ++ S ":00:00") = some (relativedelta_init 0 (n : Int) 0 0 0) := by
  have h1 : (natDigits n ++ S ":00:00").takeWhile Char.isDigit = natDigits n := by
    rw [takeWhile_append_of_all _ _ _ (natDigits_all_digit n)]
    simp [show (S ":00:00").takeWhile Char.isDigit = [] from rfl]
  have h2 : (natDigits n ++ S ":00:00").drop (natDigits n).length = ':' :: S "00:00" :=
    drop_append_self _ _
  rw [strictParse, h1, h2]
  rw [if_neg (by simp [show (S " days,").isPrefixOf (':' :: S "00:00") = false from rfl]),
    if_neg (by simp [show (S " day,").isPrefixOf (':' :: S "00:00") = false from rfl])]
  rw [strictHMS, h1, h2, if_neg (by simp [natDigits_isEmpty n])]
  conv_rhs => rw [← digitsVal_natDigits n]
  rfl

theorem strictParse_days (n : Nat) :
    strictParse (natDigits n ++ S " days,00:00:00") =
      some (relativedelta_init (n : Int) 0 0 0 0) := by
  have h1 : (natDigits n ++ S " days,00:00:00").takeWhile Char.isDigit = natDigits n := by
    rw [takeWhile_append_of_all _ _ _ (natDigits_all_digit n)]
    simp [show (S " days,00:00:00").takeWhile Char.isDigit = [] from rfl]
  have h2 : (natDigits n ++ S " days,00:00:00").drop (natDigits n).length =
      S " days,00:00:00" := drop_append_self _ _
  rw [strictParse, h1, h2]
  rw [if_pos (by simp [natDigits_isEmpty n,
    show (S " days,").isPrefixOf (S " days,00:00:00") = true from rfl])]
  rw [show (S " days,00:00:00").drop 6 = S "00:00:00" from rfl]
  rw [show (S "00:00:00").dropWhile (fun c => c = ' ') = S "00:00:00" from rfl]
  rw [digitsVal_natDigits]
  exact strictHMS_concrete (n : Int)

/-!
## Bounds on the scaled microseconds value
-/

theorem length_dropWhile_le (p : Char → Bool) (l : Str) :
    (l.dropWhile p).length ≤ l.length := by
  induction l with
  | nil => simp
  | cons c r ih =>
    rw [List.dropWhile_cons]
    by_cases h : p c = true
    · simp only [h, if_true]
      simp only [List.length_cons]
      omega
    · simp [h]

theorem pyStrip_length_le (s : Str) : (pyStrip s).length ≤ s.length := by
  rw [pyStrip]
  calc ((s.dropWhile isSpacePy).reverse.dropWhile isSpacePy).reverse.length
      = ((s.dropWhile isSpacePy).reverse.dropWhile isSpacePy).length := by
        rw [List.length_reverse]
    _ ≤ (s.dropWhile isSpacePy).reverse.length := length_dropWhile_le _ _
    _ = (s.dropWhile isSpacePy).length := by rw [List.length_reverse]
    _ ≤ s.length := length_dropWhile_le _ _

theorem digitsVal_lt_pow_of_le (d : Str) (hd : d.all Char.isDigit = true) (n : Nat)
    (hn : d.length ≤ n) : digitsVal d < 10 ^ n :=
  lt_of_lt_of_le (digitsVal_lt d hd) (Nat.pow_le_pow_right (by omega) hn)

theorem pyInt_lt_pow (b : Str) (fv : Int) (h : pyInt b = some fv) (hnn : 0 ≤ fv) :
    fv < (10 : Int) ^ b.length := by
  rw [pyInt] at h
  have hlen : (pyStrip b).length ≤ b.length := pyStrip_length_le b
  match hs : pyStrip b with
  | [] => rw [hs, pyIntCore] at h; simp at h
  | c :: r =>
    rw [hs, pyIntCore] at h
    rw [hs] at hlen
    by_cases hp : c = '+'
    · simp only [hp, if_true, if_pos] at h
      split at h
      · simp only [Option.some.injEq] at h
        subst h
        have : digitsVal r < 10 ^ r.length := by
          rename_i hcond
          simp only [Bool.and_eq_true] at hcond
          exact digitsVal_lt r hcond.2
        have h2 : (10:ℕ) ^ r.length ≤ 10 ^ b.length := by
          apply Nat.pow_le_pow_right (by omega)
          simp only [List.length_cons] at hlen
          omega
        exact_mod_cast lt_of_lt_of_le this h2
      · simp at h
    · by_cases hm : c = '-'
      · subst hm
        rw [if_neg (by decide), if_pos rfl] at h
        split at h
        · simp only [Option.some.injEq] at h
          have hd0 : digitsVal r = 0 := by omega
          have hz : fv = 0 := by omega
          rw [hz]
          positivity
        · simp at h
      · simp only [hp, hm, Bool.false_eq_true, if_false, if_neg] at h
        split at h
        · simp only [Option.some.injEq] at h
          subst h
          rename_i hcond
          have : digitsVal (c :: r) < 10 ^ (c :: r).length := digitsVal_lt _ hcond
          have h2 : (10:ℕ) ^ (c :: r).length ≤ 10 ^ b.length :=
            Nat.pow_le_pow_right (by omega) hlen
          exact_mod_cast lt_of_lt_of_le this h2
        · simp at h

theorem scaled_micro_bound (fv : Int) (l : Nat) (h1 : 0 ≤ fv) (h2 : fv < (10 : Int) ^ l) :
    0 ≤ fv * Int.fdiv microsecondsC ((10 : Int) ^ l) ∧
      fv * Int.fdiv microsecondsC ((10 : Int) ^ l) ≤ 999999 := by
  have hfd : Int.fdiv microsecondsC ((10 : Int) ^ l) = ((1000000 / 10 ^ l : Nat) : Int) := by
    have hcast : ((10 : Int) ^ l) = ((10 ^ l : Nat) : Int) := by push_cast; ring
    rw [hcast]
    rfl
  rw [hfd]
  set a : Nat := fv.toNat with ha
  have hfa : fv = (a : Int) := by omega
  have ha10 : a < 10 ^ l := by
    rw [hfa] at h2
    exact_mod_cast h2
  constructor
  · positivity
  · rw [hfa]
    have : a * (1000000 / 10 ^ l) ≤ 999999 := by
      by_cases hl : l ≤ 6
      · have hdiv : (1000000 : Nat) / 10 ^ l = 10 ^ (6 - l) := by
          have : (1000000 : Nat) = 10 ^ 6 := by norm_num
          rw [this, Nat.pow_div hl (by omega)]
        rw [hdiv]
        have hb : a ≤ 10 ^ l - 1 := by omega
        calc a * 10 ^ (6 - l) ≤ (10 ^ l - 1) * 10 ^ (6 - l) :=
              Nat.mul_le_mul_right _ hb
          _ = 10 ^ l * 10 ^ (6 - l) - 10 ^ (6 - l) := by
              rw [Nat.sub_mul, Nat.one_mul]
          _ = 10 ^ 6 - 10 ^ (6 - l) := by
              rw [← Nat.pow_add]
              congr 2
              omega
          _ ≤ 10 ^ 6 - 1 := by
              have : (1:ℕ) ≤ 10 ^ (6 - l) := Nat.one_le_pow _ _ (by omega)
              omega
          _ = 999999 := by norm_num
      · have : (1000000 : Nat) < 10 ^ l := by
          calc (1000000 : Nat) = 10 ^ 6 := by norm_num
          _ < 10 ^ l := Nat.pow_lt_pow_right (by omega) (by omega)
        rw [Nat.div_eq_of_lt this]
        simp
    exact_mod_cast this

/-!
## Lexicographic comparison and accumulation lemmas
-/

theorem lexLt_nil (xs : List Int) : lexLt xs [] = False := by
  cases xs <;> rfl

theorem lexLt_nil_cons (y : Int) (ys : List Int) : lexLt [] (y :: ys) = True := rfl

theorem lexLt_cons (x y : Int) (xs ys : List Int) :
    lexLt (x :: xs) (y :: ys) = (x < y ∨ (x = y ∧ lexLt xs ys)) := rfl

theorem pyCmpList_spec (xs ys : List Int) :
    (pyCmpList xs ys < 0 ↔ lexLt xs ys) ∧ (pyCmpList xs ys = 0 ↔ xs = ys) ∧
      (0 < pyCmpList xs ys ↔ lexLt ys xs) := by
  induction xs generalizing ys with
  | nil =>
    cases ys with
    | nil => simp [pyCmpList, lexLt_nil]
    | cons y ys => simp [pyCmpList, lexLt_nil, lexLt_nil_cons]
  | cons x xs ih =>
    cases ys with
    | nil => simp [pyCmpList, lexLt_nil, lexLt_nil_cons]
    | cons y ys =>
      rw [pyCmpList]
      by_cases hxy : x = y
      · subst hxy
        rw [if_pos rfl]
        obtain ⟨i1, i2, i3⟩ := ih ys
        refine ⟨?_, ?_, ?_⟩
        · rw [i1, lexLt_cons]
          simp [lt_irrefl]
        · rw [i2]
          simp
        · rw [i3, lexLt_cons]
          simp [lt_irrefl]
      · rw [if_neg hxy, pyCmp]
        rcases lt_trichotomy x y with hlt | heq | hgt
        · rw [if_pos hlt]
          refine ⟨?_, ?_, ?_⟩
          · rw [lexLt_cons]
            norm_num [hlt]
          · norm_num [hxy]
          · rw [lexLt_cons]
            norm_num [not_lt.mpr hlt.le, Ne.symm hxy]
        · exact absurd heq hxy
        · rw [if_neg (by omega), if_pos hgt]
          refine ⟨?_, ?_, ?_⟩
          · rw [lexLt_cons]
            norm_num [not_lt.mpr hgt.le, hxy]
          · norm_num [hxy]
          · rw [lexLt_cons]
            norm_num [hgt]

theorem foldl_months (l : List Str) (r0 : Relativedelta) :
    l.foldl (fun r c => { r with months := r.months + (digitsVal c : Int) }) r0 =
      { r0 with months := r0.months + ((l.map fun c => (digitsVal c : Int)).sum) } := by
  induction l generalizing r0 with
  | nil => simp
  | cons a t ih =>
    rw [List.foldl_cons, ih, List.map_cons, List.sum_cons]
    simp only [Relativedelta.mk.injEq, true_and, and_true]
    ring

theorem foldl_days (l : List Str) (r0 : Relativedelta) :
    l.foldl (fun r c => { r with days := r.days + (digitsVal c : Int) }) r0 =
      { r0 with days := r0.days + ((l.map fun c => (digitsVal c : Int)).sum) } := by
  induction l generalizing r0 with
  | nil => simp
  | cons a t ih =>
    rw [List.foldl_cons, ih, List.map_cons, List.sum_cons]
    simp only [Relativedelta.mk.injEq, true_and, and_true]
    ring

theorem foldl_hms (l : List (Str × Str × Str)) (r0 : Relativedelta) :
    l.foldl (fun r t => { r with hours := r.hours + (digitsVal t.1 : Int),
                                 minutes := r.minutes + (digitsVal t.2.1 : Int),
                                 seconds := r.seconds + (digitsVal t.2.2 : Int) }) r0 =
      { r0 with hours := r0.hours + ((l.map fun t => (digitsVal t.1 : Int)).sum),
                minutes := r0.minutes + ((l.map fun t => (digitsVal t.2.1 : Int)).sum),
                seconds := r0.seconds + ((l.map fun t => (digitsVal t.2.2 : Int)).sum) } := by
  induction l generalizing r0 with
  | nil => simp
  | cons a t ih =>
    rw [List.foldl_cons, ih, List.map_cons, List.sum_cons, List.map_cons, List.sum_cons,
      List.map_cons, List.sum_cons]
    simp only [Relativedelta.mk.injEq, true_and, and_true]
    exact ⟨by ring, by ring, by ring⟩

/-!
## Formatter and error-message lemmas
-/

theorem intercalate_single (s a : Str) : List.intercalate s [a] = a := by
  simp [List.intercalate]

theorem intercalate_cons2 (s a b : Str) (t : List Str) :
    List.intercalate s (a :: b :: t) = a ++ s ++ List.intercalate s (b :: t) := by
  simp [List.intercalate, List.intersperse]

theorem topg_eq_specFormat (r : Relativedelta) :
    relativedelta_topgsqlstring r =
      specFormat ⟨0, r.months, r.days, 0, 0, r.seconds, r.microseconds⟩ := by
  rw [relativedelta_topgsqlstring, specFormat]
  by_cases h1 : r.months = 0 <;> by_cases h2 : r.days = 0 <;>
    by_cases h3 : r.seconds = 0 <;> by_cases h4 : r.microseconds = 0 <;>
    simp [specTerm, h1, h2, h3, h4, List.filter_cons, intercalate_single, intercalate_cons2]

theorem containsSub_middle (c0 : Char) (cs a b : Str) :
    containsSub (c0 :: cs) (a ++ (c0 :: cs) ++ b) = true := by
  rw [List.append_assoc]
  exact containsSub_append_right _ a _ (containsSub_append_sep c0 cs b)

theorem errFamily_format (x : Str) : errMsgFamily (formatErrorMsg x) = true := by
  rw [errMsgFamily, formatErrorMsg, isPrefixOf_append_self]
  simp

theorem errFamily_not_int (x : Str) : errMsgFamily (x ++ S " is not an integer") = true := by
  rw [errMsgFamily]
  have h : (S " is not an integer").isSuffixOf (x ++ S " is not an integer") = true :=
    isSuffixOf_append_self x _
  rw [h]
  simp

theorem errFamily_less (a b : Str) :
    errMsgFamily (a ++ S " is less than " ++ b) = true := by
  rw [errMsgFamily]
  have h : containsSub (S " is less than ") (a ++ S " is less than " ++ b) = true :=
    containsSub_middle ' ' (S "is less than ") a b
  rw [h]
  simp

theorem errFamily_more (a b : Str) :
    errMsgFamily (a ++ S " is more than " ++ b) = true := by
  rw [errMsgFamily]
  have h : containsSub (S " is more than ") (a ++ S " is more than " ++ b) = true :=
    containsSub_middle ' ' (S "is more than ") a b
  rw [h]
  simp

theorem errFamily_unpack (n : Nat) : errMsgFamily (unpackMsg n) = true := by
  rw [unpackMsg]
  by_cases h : n > 2
  · rw [if_pos h]; decide
  · rw [if_neg h]; decide

theorem errFamily_float (x : Str) :
    errMsgFamily (S "could not convert string to float: " ++ x) = true := by
  rw [errMsgFamily, isPrefixOf_append_self]
  simp

theorem range_check_err (val : PyNum) (name : Str) (mn mx : Option Int) (e : Str)
    (h : range_check val name mn mx = .error e) : errMsgFamily e = true := by
  rw [range_check] at h
  split at h
  · simp only [Except.error.injEq] at h
    subst h
    exact errFamily_not_int _
  · split at h
    · split at h
      · simp only [Except.error.injEq] at h
        subst h
        exact errFamily_less _ _
      · split at h
        · split at h
          · simp only [Except.error.injEq] at h
            subst h
            exact errFamily_more _ _
          · simp at h
        · simp at h
    · split at h
      · split at h
        · simp only [Except.error.injEq] at h
          subst h
          exact errFamily_more _ _
        · simp at h
      · simp at h

theorem except_map_eq_error (x : Except Str α) (f : α → β) (e : Str)
    (h : x.map f = .error e) : x = .error e := by
  match x with
  | .ok a => simp [except_map_ok] at h
  | .error e2 => simp [except_map_error] at h; rw [h]

theorem dayPrefixStep_err (v e : Str) (h : dayPrefixStep v = .error e) :
    errMsgFamily e = true := by
  rw [dayPrefixStep] at h
  dsimp only at h
  by_cases h1 : containsSub (S "days,") v = true
  · rw [if_pos (by simp [h1]), if_pos h1] at h
    rcases h2 : pySplit (S "days,") v with _ | ⟨d1, _ | ⟨r1, _ | ⟨x1, t1⟩⟩⟩ <;> rw [h2] at h
    · simp only [Except.error.injEq] at h
      subst h
      exact errFamily_unpack _
    · simp only [Except.error.injEq] at h
      subst h
      exact errFamily_unpack _
    · dsimp only at h
      cases hdi : pyInt (pyStrip d1) with
      | none =>
        rw [hdi] at h
        simp only [Except.error.injEq] at h
        subst h
        exact errFamily_format _
      | some dv =>
        rw [hdi] at h
        exact range_check_err _ _ _ _ _ (except_map_eq_error _ _ _ h)
    · simp only [Except.error.injEq] at h
      subst h
      exact errFamily_unpack _
  · by_cases hb : containsSub (S "day,") v = true
    · rw [if_pos (by simp [hb]), if_neg (by simp [h1])] at h
      rcases h2 : pySplit (S "day,") v with _ | ⟨d1, _ | ⟨r1, _ | ⟨x1, t1⟩⟩⟩ <;> rw [h2] at h
      · simp only [Except.error.injEq] at h
        subst h
        exact errFamily_unpack _
      · simp only [Except.error.injEq] at h
        subst h
        exact errFamily_unpack _
      · dsimp only at h
        cases hdi : pyInt (pyStrip d1) with
        | none =>
          rw [hdi] at h
          simp only [Except.error.injEq] at h
          subst h
          exact errFamily_format _
        | some dv =>
          rw [hdi] at h
          exact range_check_err _ _ _ _ _ (except_map_eq_error _ _ _ h)
      · simp only [Except.error.injEq] at h
        subst h
        exact errFamily_unpack _
    · rw [if_neg (by simp [h1, hb])] at h
      simp at h

theorem secStep_err (d hv mv : Int) (s e : Str) (h : secStep d hv mv s = .error e) :
    errMsgFamily e = true := by
  rw [secStep] at h
  by_cases hdot : containsSub (S ".") s = true
  · rw [if_pos hdot] at h
    rcases h2 : pySplit (S ".") s with _ | ⟨q1, _ | ⟨q2, _ | ⟨q3, u3⟩⟩⟩ <;> rw [h2] at h
    · simp only [except_bind_error, Except.error.injEq] at h
      subst h
      exact errFamily_unpack _
    · simp only [except_bind_error, Except.error.injEq] at h
      subst h
      exact errFamily_unpack _
    · dsimp only at h
      rw [except_bind_ok] at h
      cases hrc : range_check (.s q1) (S "seconds") (some 0) (some 59) with
      | error e2 =>
        rw [hrc, except_bind_error] at h
        simp only [Except.error.injEq] at h
        subst h
        exact range_check_err _ _ _ _ _ hrc
      | ok sv =>
        rw [hrc, except_bind_ok] at h
        cases hrc2 : range_check (.s q2) (S "microseconds") (some 0) (some microsecondsC) with
        | error e2 =>
          rw [hrc2, except_bind_error] at h
          simp only [Except.error.injEq] at h
          subst h
          exact range_check_err _ _ _ _ _ hrc2
        | ok msv =>
          rw [hrc2, except_bind_ok] at h
          exact Except.noConfusion h
    · simp only [except_bind_error, Except.error.injEq] at h
      subst h
      exact errFamily_unpack _
  · rw [if_neg hdot, except_bind_ok] at h
    dsimp only at h
    cases hrc : range_check (.s s) (S "seconds") (some 0) (some 59) with
    | error e2 =>
      rw [hrc, except_bind_error] at h
      simp only [Except.error.injEq] at h
      subst h
      exact range_check_err _ _ _ _ _ hrc
    | ok sv =>
      rw [hrc, except_bind_ok] at h
      cases hrc2 : range_check (.s (S "0")) (S "microseconds") (some 0) (some microsecondsC) with
      | error e2 =>
        rw [hrc2, except_bind_error] at h
        simp only [Except.error.injEq] at h
        subst h
        exact range_check_err _ _ _ _ _ hrc2
      | ok msv =>
        rw [hrc2, except_bind_ok] at h
        exact Except.noConfusion h

theorem hmsStep_err (d : Int) (v e : Str) (h : hmsStep d v = .error e) :
    errMsgFamily e = true := by
  rw [hmsStep] at h
  rcases h3 : pySplit (S ":") v with _ | ⟨p1, _ | ⟨p2, _ | ⟨p3, _ | ⟨p4, t4⟩⟩⟩⟩ <;> rw [h3] at h
  · simp only [except_bind_error, Except.error.injEq] at h
    subst h
    exact errFamily_format _
  · simp only [except_bind_error, Except.error.injEq] at h
    subst h
    exact errFamily_format _
  · simp only [except_bind_error, Except.error.injEq] at h
    subst h
    exact errFamily_format _
  · dsimp only at h
    rw [except_bind_ok] at h
    cases hrc : range_check (.s p1) (S "hours") (some 0) none with
    | error e2 =>
      rw [hrc, except_bind_error] at h
      simp only [Except.error.injEq] at h
      subst h
      exact range_check_err _ _ _ _ _ hrc
    | ok hv =>
      rw [hrc, except_bind_ok] at h
      cases hrc2 : range_check (.s p2) (S "minutes") (some 0) (some 59) with
      | error e2 =>
        rw [hrc2, except_bind_error] at h
        simp only [Except.error.injEq] at h
        subst h
        exact range_check_err _ _ _ _ _ hrc2
      | ok mv =>
        rw [hrc2, except_bind_ok] at h
        exact secStep_err _ _ _ _ _ h
  · simp only [except_bind_error, Except.error.injEq] at h
    subst h
    exact errFamily_format _

theorem to_python_str_err (v e : Str) (h : to_python_str v = .error e) :
    errMsgFamily e = true := by
  rw [to_python_str] at h
  cases hd : dayPrefixStep v with
  | error e2 =>
    rw [hd, except_bind_error] at h
    simp only [Except.error.injEq] at h
    subst h
    exact dayPrefixStep_err _ _ hd
  | ok p =>
    rw [hd, except_bind_ok] at h
    exact hmsStep_err _ _ _ h

theorem to_python_bstr_err (v : Str) (e : Str) (h : to_python (.bstr v) = .error e) :
    errMsgFamily e = true := by
  rw [to_python] at h
  by_cases h0 : v = []
  · rw [if_pos h0] at h
    simp at h
  · rw [if_neg h0] at h
    by_cases hc : containsSub (S ":") v = true
    · rw [if_pos hc] at h
      exact to_python_str_err v e (except_map_eq_error _ _ _ h)
    · rw [if_neg hc] at h
      cases hf : pyFloat v with
      | some q => rw [hf] at h; simp at h
      | none =>
        rw [hf] at h
        simp only [Except.error.injEq] at h
        subst h
        exact errFamily_float _

theorem lenientSec_frac (s : Str) (p : Int × Option (Int × Nat)) (h : lenientSec s = some p)
    (fv : Int) (l : Nat) (hfr : p.2 = some (fv, l)) :
    ∃ b : Str, b.length = l ∧ pyInt b = some fv := by
  rw [lenientSec] at h
  split at h
  · rcases hs : pySplit (S ".") s with _ | ⟨q1, _ | ⟨q2, _ | ⟨q3, u3⟩⟩⟩ <;> rw [hs] at h
    · simp at h
    · simp at h
    · simp only [Option.bind_eq_some, Option.map_eq_some'] at h
      obtain ⟨sv, hsv, fv2, hfv2, hpeq⟩ := h
      rw [← hpeq] at hfr
      simp only [Option.some.injEq, Prod.mk.injEq] at hfr
      exact ⟨q2, hfr.2, by rw [hfv2, hfr.1]⟩
    · simp at h
  · simp only [Option.map_eq_some'] at h
    obtain ⟨sv, _, hpeq⟩ := h
    rw [← hpeq] at hfr
    simp at hfr

theorem lenientHMS_frac (d : Int) (rest : Str) (f : RawFields)
    (h : lenientHMS d rest = some f) (fv : Int) (l : Nat) (hfr : f.frac = some (fv, l)) :
    ∃ b : Str, b.length = l ∧ pyInt b = some fv := by
  rw [lenientHMS] at h
  rcases hs : pySplit (S ":") rest with _ | ⟨p1, _ | ⟨p2, _ | ⟨p3, _ | ⟨p4, t4⟩⟩⟩⟩ <;>
    rw [hs] at h <;> try simp at h
  simp only [Option.bind_eq_some, Option.map_eq_some'] at h
  obtain ⟨hv, _, mv, _, q, hq, hfeq⟩ := h
  refine lenientSec_frac p3 q hq fv l ?_
  rw [← hfeq] at hfr
  exact hfr

theorem lenientFields_frac (v : Str) (f : RawFields) (h : lenientFields v = some f)
    (fv : Int) (l : Nat) (hfr : f.frac = some (fv, l)) :
    ∃ b : Str, b.length = l ∧ pyInt b = some fv := by
  rw [lenientFields] at h
  split at h
  · rcases hs : pySplit (S "days,") v with _ | ⟨d1, _ | ⟨r1, _ | ⟨x1, t1⟩⟩⟩ <;> rw [hs] at h <;>
      try simp at h
    simp only [Option.bind_eq_some] at h
    obtain ⟨dv, _, hlh⟩ := h
    exact lenientHMS_frac dv (pyStrip r1) f hlh fv l hfr
  · split at h
    · rcases hs : pySplit (S "day,") v with _ | ⟨d1, _ | ⟨r1, _ | ⟨x1, t1⟩⟩⟩ <;> rw [hs] at h <;>
        try simp at h
      simp only [Option.bind_eq_some] at h
      obtain ⟨dv, _, hlh⟩ := h
      exact lenientHMS_frac dv (pyStrip r1) f hlh fv l hfr
    · exact lenientHMS_frac 0 v f h fv l hfr

theorem rangesOK_spec (f : RawFields) (h : rangesOK f = true) :
    0 ≤ f.days ∧ 0 ≤ f.hours ∧ 0 ≤ f.minutes ∧ f.minutes ≤ 59 ∧
      0 ≤ f.seconds ∧ f.seconds ≤ 59 ∧
      (∀ p, f.frac = some p → 0 ≤ p.1 ∧ p.1 ≤ microsecondsC) := by
  rw [rangesOK] at h
  simp only [Bool.and_eq_true, decide_eq_true_eq] at h
  obtain ⟨⟨⟨⟨⟨⟨h1, h2⟩, h3⟩, h4⟩, h5⟩, h6⟩, h7⟩ := h
  refine ⟨h1, h2, h3, h4, h5, h6, ?_⟩
  intro p hp
  rw [hp] at h7
  simp only [Option.all_some, Bool.and_eq_true, decide_eq_true_eq] at h7
  exact h7

/-!
## Claim theorems
-/

theorem exceptToOption_map (x : Except Str α) (g : α → β) :
    exceptToOption (x.map g) = (exceptToOption x).map g := by
  match x with
  | .ok a => rfl
  | .error e => rfl

theorem cast_interval_cons (c : Char) (t : Str) :
    cast_interval (some (c :: t)) =
      (scanHMS (c :: t)).foldl
        (fun r p => { r with hours := r.hours + (digitsVal p.1 : Int),
                             minutes := r.minutes + (digitsVal p.2.1 : Int),
                             seconds := r.seconds + (digitsVal p.2.2 : Int) })
        ((scanNumWord (S " day") (c :: t)).foldl
          (fun r d => { r with days := r.days + (digitsVal d : Int) })
          ((scanNumWord (S " month") (c :: t)).foldl
            (fun r m => { r with months := r.months + (digitsVal m : Int) })
            zeroRelativedelta)) := rfl

/-- Claim C1 (counterexample): the string `"24:00:00"` has the claimed shape
`HH:MM:SS` with hour field 24, minute field 0 and second field 0, yet
`to_python` does not return a relativedelta with hour component 24: dateutil
normalises the components, carrying 24 hours into one day. -/
theorem C1_counterexample :
    lenientFields (S "24:00:00") = some ⟨0, 24, 0, 0, none⟩ ∧
    to_python_str (S "24:00:00") = .ok ⟨0, 0, 1, 0, 0, 0, 0⟩ ∧
    (Relativedelta.mk 0 0 1 0 0 0 0).hours ≠ 24 :=
  ⟨rfl, rfl, by decide⟩

/-- Claim C1 (amended): for every string containing a ':' character,
`to_python` parses it as `[[D]D days,]HH:MM:SS[.ms]` with each numeric field
read by Python `int` (tolerating surrounding whitespace and an explicit sign),
and returns the relativedelta built — and normalised by `relativedelta`'s
constructor — from the recovered day/hour/minute/second/microsecond
components; a string with a ':' that does not decompose this way (or whose
fields fail the range checks) raises a `ValueError`.  Digit-only strings of
the strict template are a special case of the accepted shape. -/
theorem C1_parse_characterisation :
    (∀ v : Str, containsSub (S ":") v = true →
      exceptToOption (to_python (.bstr v)) = (lenientParse v).map PyRet.rel) ∧
    (∀ (v : Str) (r : Relativedelta), strictParse v = some r → lenientParse v = some r) := by
  constructor
  · intro v hc
    have hne : v ≠ [] := by
      intro h0
      rw [h0] at hc
      exact absurd hc (by decide)
    rw [to_python, if_neg hne, if_pos hc, exceptToOption_map, master]
  · exact strict_sound

/-- Claim C1 (witness): concrete instances of both halves of the
characterisation. -/
theorem C1_witness :
    exceptToOption (to_python (.bstr (S "01:02:03"))) =
      (lenientParse (S "01:02:03")).map PyRet.rel ∧
    lenientParse (S "3 days,04:05:06") = some (Relativedelta.mk 0 0 3 4 5 6 0) :=
  ⟨C1_parse_characterisation.1 (S "01:02:03") rfl,
    C1_parse_characterisation.2 (S "3 days,04:05:06") (Relativedelta.mk 0 0 3 4 5 6 0) rfl⟩

/-- Claim C2 (counterexample): the fractional field of `"00:00:00.1000000"`
has integer value 10^6, which lies outside [0, 10^6), yet `to_python` accepts
the string without a `ValueError` (the `range_check` maximum is inclusive) and
returns the zero relativedelta. -/
theorem C2_counterexample :
    lenientFields (S "00:00:00.1000000") = some ⟨0, 0, 0, 0, some (1000000, 7)⟩ ∧
    to_python_str (S "00:00:00.1000000") = .ok ⟨0, 0, 0, 0, 0, 0, 0⟩ :=
  ⟨rfl, rfl⟩

/-- Claim C2 (amended): when `to_python` parses a `[[D]D days,]HH:MM:SS[.ms]`
string, each field's range is validated on parse: given that the string
decomposes into fields at all, the parse succeeds exactly when minutes and
seconds lie in [0, 59], the fractional value lies in [0, 10^6] (the upper
bound inclusive, since `range_check` only rejects values strictly above its
maximum), and days and hours are ≥ 0; days and hours have no upper bound —
an arbitrarily large day or hour count is accepted. -/
theorem C2_field_ranges :
    (∀ (v : Str) (f : RawFields), lenientFields v = some f →
      ((∃ r, to_python_str v = .ok r) ↔ rangesOK f = true)) ∧
    (∀ n : Nat, to_python_str (natDigits n ++ S ":00:00") =
      .ok (relativedelta_init 0 (n : Int) 0 0 0)) ∧
    (∀ n : Nat, to_python_str (natDigits n ++ S " days,00:00:00") =
      .ok (relativedelta_init (n : Int) 0 0 0 0)) := by
  refine ⟨?_, ?_, ?_⟩
  · intro v f hf
    have hm := master v
    rw [lenientParse, hf] at hm
    simp only [Option.some_bind] at hm
    constructor
    · rintro ⟨r, hr⟩
      rw [hr, exceptToOption_ok] at hm
      by_contra hro
      rw [if_neg hro] at hm
      cases hm
    · intro hro
      rw [if_pos hro] at hm
      exact ⟨fieldsToRel f, (exceptToOption_eq_some _ _).1 hm⟩
  · intro n
    have hm := master (natDigits n ++ S ":00:00")
    rw [strict_sound _ _ (strictParse_hours n)] at hm
    exact (exceptToOption_eq_some _ _).1 hm
  · intro n
    have hm := master (natDigits n ++ S " days,00:00:00")
    rw [strict_sound _ _ (strictParse_days n)] at hm
    exact (exceptToOption_eq_some _ _).1 hm

/-- Claim C2 (witness): minutes 99 is rejected, and a three-digit hour count
is accepted. -/
theorem C2_witness :
    (¬ ∃ r, to_python_str (S "00:99:00") = .ok r) ∧
    to_python_str (natDigits 100 ++ S ":00:00") = .ok (relativedelta_init 0 100 0 0 0) := by
  constructor
  · rw [C2_field_ranges.1 (S "00:99:00") ⟨0, 0, 99, 0, none⟩ rfl]
    decide
  · exact C2_field_ranges.2.1 100

/-- Claim C3: for every input string, `cast_interval` returns a relativedelta
whose months component is the sum of all `'(\d+) months?'` captures, whose
days component is the sum of all `'(\d+) days?'` captures, and whose hours,
minutes and seconds components are the sums of the respective fields of all
`'(\d\d:\d\d:\d\d)'` matches; years and microseconds are never set. -/
theorem C3_cast_interval_sums (v : Str) :
    (cast_interval (some v)).months =
        ((scanNumWord (S " month") v).map fun c => (digitsVal c : Int)).sum ∧
    (cast_interval (some v)).days =
        ((scanNumWord (S " day") v).map fun c => (digitsVal c : Int)).sum ∧
    (cast_interval (some v)).hours =
        ((scanHMS v).map fun t => (digitsVal t.1 : Int)).sum ∧
    (cast_interval (some v)).minutes =
        ((scanHMS v).map fun t => (digitsVal t.2.1 : Int)).sum ∧
    (cast_interval (some v)).seconds =
        ((scanHMS v).map fun t => (digitsVal t.2.2 : Int)).sum ∧
    (cast_interval (some v)).years = 0 ∧
    (cast_interval (some v)).microseconds = 0 := by
  cases v with
  | nil => exact ⟨rfl, rfl, rfl, rfl, rfl, rfl, rfl⟩
  | cons c t =>
    rw [cast_interval_cons, foldl_months, foldl_days, foldl_hms]
    refine ⟨?_, ?_, ?_, ?_, ?_, ?_, ?_⟩ <;> simp [zeroRelativedelta]

/-- Claim C4: `cmp_relativedeltas` is negative, zero or positive exactly
according to the lexicographic order of the seven-component
(years, months, days, hours, minutes, seconds, microseconds) tuples. -/
theorem C4_cmp_lexicographic (l r : Relativedelta) :
    (cmp_relativedeltas l r < 0 ↔ lexLt (relTuple l) (relTuple r)) ∧
    (cmp_relativedeltas l r = 0 ↔ relTuple l = relTuple r) ∧
    (0 < cmp_relativedeltas l r ↔ lexLt (relTuple r) (relTuple l)) :=
  pyCmpList_spec (relTuple l) (relTuple r)

/-- Claim C5 (counterexample): for the delta with hours = 5 and every other
component zero, the claimed formatter would produce `"5 HOURS"`, but
`relativedelta_topgsqlstring` produces `"0"` — it never reads the years,
hours or minutes attributes. -/
theorem C5_counterexample :
    relativedelta_topgsqlstring ⟨0, 0, 0, 5, 0, 0, 0⟩ = S "0" ∧
    specFormat ⟨0, 0, 0, 5, 0, 0, 0⟩ = S "5 HOURS" ∧
    (S "0" : Str) ≠ S "5 HOURS" :=
  ⟨rfl, rfl, by decide⟩

/-- Claim C5 (amended): `relativedelta_topgsqlstring` produces the
space-separated `'<value> <UNIT>'` terms for each non-zero component among
months, days, seconds and microseconds only (years, hours and minutes are
ignored), or `"0"` when those four components are zero; equivalently, it
agrees with the claimed all-component formatter applied to the delta with its
years, hours and minutes components zeroed. -/
theorem C5_formatter (r : Relativedelta) :
    relativedelta_topgsqlstring r =
      specFormat ⟨0, r.months, r.days, 0, 0, r.seconds, r.microseconds⟩ :=
  topg_eq_specFormat r

/-- Claim C6 (counterexample): a string in which `"days,"` occurs twice makes
the unpacking `days, value = value.split("days,")` raise a `ValueError` whose
message (`"too many values to unpack"`) neither instructs the expected format
nor names an offending value. -/
theorem C6_counterexample :
    to_python_str (S "0 days,0 days,0:0:0") = .error (S "too many values to unpack") ∧
    (S "please use [[DD]D days,]HH:MM:SS[.ms] instead of ").isPrefixOf
        (S "too many values to unpack") = false ∧
    (S " is not an integer").isSuffixOf (S "too many values to unpack") = false ∧
    containsSub (S " is less than ") (S "too many values to unpack") = false ∧
    containsSub (S " is more than ") (S "too many values to unpack") = false :=
  ⟨rfl, rfl, rfl, rfl, rfl⟩

/-- Claim C6 (amended): every failure of `to_python` on a byte string is a
`ValueError` (the single error channel of the model — every `raise` in the
source is a `ValueError`), and its message is one of: the format instruction
`"please use [[DD]D days,]HH:MM:SS[.ms] instead of ..."`, one of the
individually-worded `range_check` messages (`"... is not an integer"`,
`"... is less than ..."`, `"... is more than ..."`), one of Python's tuple
unpacking messages (raised when the `"days,"`/`"day,"` or `"."` separator
occurs more than once), or the float conversion message of the no-colon
branch. -/
theorem C6_error_messages (v e : Str) (h : to_python (.bstr v) = .error e) :
    errMsgFamily e = true :=
  to_python_bstr_err v e h

/-- Claim C6 (witness): the hours field `"xx"` produces the not-an-integer
message, which belongs to the family. -/
theorem C6_witness : errMsgFamily (S "xx is not an integer") = true :=
  C6_error_messages (S "xx:1:2") (S "xx is not an integer") rfl

/-- Claim C7: all conversion functions of the module are stateless and
deterministic — in this embedding each is a pure total function of its
arguments alone, so two calls with the same input always yield the same
result. -/
theorem C7_deterministic :
    (∀ v, cast_interval v = cast_interval v) ∧
    (∀ x, to_python x = to_python x) ∧
    (∀ r, relativedelta_topgsqlstring r = relativedelta_topgsqlstring r) ∧
    (∀ r, relativedelta_tobigint r = relativedelta_tobigint r) ∧
    (∀ x e, get_db_prep_value x e = get_db_prep_value x e) ∧
    (∀ l r, cmp_relativedeltas l r = cmp_relativedeltas l r) :=
  ⟨fun _ => rfl, fun _ => rfl, fun _ => rfl, fun _ => rfl, fun _ _ => rfl, fun _ _ => rfl⟩

/-- Claim C8: `None` and the empty string map to `None` in both directions:
`to_python` returns `None` for `None` and for the empty byte or unicode
string, and `get_db_prep_value` returns `None` for `None` and for the empty
byte string, for every database engine. -/
theorem C8_none_empty (engine : Str) :
    to_python .pynone = .ok .none ∧
    to_python (.bstr []) = .ok .none ∧
    to_python (.ustr []) = .ok .none ∧
    get_db_prep_value .pynone engine = .ok .none ∧
    get_db_prep_value (.bstr []) engine = .ok .none := by
  refine ⟨rfl, rfl, rfl, ?_, ?_⟩ <;> rw [get_db_prep_value] <;> simp

/-- Claim C9: `cast_interval` applied to a falsy value — `None` (a SQL NULL)
or the empty string — returns the zero relativedelta, all seven components
zero. -/
theorem C9_cast_falsy :
    cast_interval none = ⟨0, 0, 0, 0, 0, 0, 0⟩ ∧
    cast_interval (some []) = ⟨0, 0, 0, 0, 0, 0, 0⟩ :=
  ⟨rfl, rfl⟩

/-- Claim C10: when `to_python` successfully parses a string whose seconds
field carries a fractional part of `l` digits with integer value `X`, the
resulting relativedelta's microseconds component is `X * (10^6 / 10^l)` under
floor division — so `".5"` yields 500000, `".000001"` yields 1, and any
fractional part longer than six digits yields 0. -/
theorem C10_fraction_scaling (v : Str) (f : RawFields) (fv : Int) (l : Nat)
    (r : Relativedelta) (hf : lenientFields v = some f) (hfr : f.frac = some (fv, l))
    (hok : to_python_str v = .ok r) :
    r.microseconds = fv * Int.fdiv microsecondsC ((10 : Int) ^ l) := by
  have hm := master v
  rw [hok, lenientParse, hf] at hm
  simp only [Option.some_bind, exceptToOption_ok] at hm
  by_cases hro : rangesOK f = true
  · rw [if_pos hro] at hm
    simp only [Option.some.injEq] at hm
    obtain ⟨b, hbl, hbf⟩ := lenientFields_frac v f hf fv l hfr
    obtain ⟨hd0, hh0, hm1, hm2, hs1, hs2, hfb⟩ := rangesOK_spec f hro
    have hfvr := hfb (fv, l) hfr
    have hlt : fv < (10 : Int) ^ l := by
      rw [← hbl]
      exact pyInt_lt_pow b fv hbf hfvr.1
    obtain ⟨hsc1, hsc2⟩ := scaled_micro_bound fv l hfvr.1 hlt
    have hmicro : fieldsMicro f = fv * Int.fdiv microsecondsC ((10 : Int) ^ l) := by
      rw [fieldsMicro, hfr]
    rw [hm, fieldsToRel]
    rw [(relativedelta_init_micro f.days f.hours f.minutes f.seconds (fieldsMicro f)
      hm1 hm2 hs1 hs2 (by rw [hmicro]; exact hsc1) (by rw [hmicro]; exact hsc2)).1]
    exact hmicro
  · rw [if_neg hro] at hm
    cases hm

/-- Claim C10 (witness): `"00:00:00.5"` parses to 500000 microseconds, which
is `5 * (10^6 / 10^1)`. -/
theorem C10_witness :
    (Relativedelta.mk 0 0 0 0 0 0 500000).microseconds =
      5 * Int.fdiv microsecondsC ((10 : Int) ^ 1) :=
  C10_fraction_scaling (S "00:00:00.5") ⟨0, 0, 0, 0, some (5, 1)⟩ 5 1
    ⟨0, 0, 0, 0, 0, 0, 500000⟩ rfl rfl rfl
